import Mathlib

/-!
# Verification of the cloud-cartography graph construction and metrics engine

A shallow embedding of `src/backend/backend/main.py`: the graph builder
(`create_graph`), the metrics engine (`calculate_graph_metrics`), the graph
serializer (`graph_to_json`) and the default time-window derivation performed
by the request handler (`get_graph_data`).

The Python code stores the graph in a `networkx.DiGraph`.  We model that
structure by insertion-ordered association lists with unique keys: nodes are
keyed by their integer id and carry an optional attribute record (nodes
created implicitly as edge endpoints carry no attributes), edges are keyed by
the ordered pair `(source, target)` and carry their `timestamp` attribute.
Re-adding an existing node or edge overwrites its attributes in place, which
is exactly `networkx`'s behaviour.

Library calls (`nx.all_pairs_shortest_path_length`, `nx.density`,
`nx.average_clustering`, `nx.clustering`, `nx.betweenness_centrality`,
`nx.to_numpy_array`) are modelled by their documented semantics, spelled out
as executable definitions below.
-/

namespace CloudCartography

/-- Attribute record attached by `create_graph` to a node created from a
`user_data` entry (`username`, `timestamp`, `avatar_url`). -/
structure NodeAttrs where
  username : String
  timestamp : Int
  avatar_url : Option String
  deriving Repr, DecidableEq

/-- One `user_data` entry: a resolved identity. -/
structure Ident where
  username : String
  fid : Int
  avatar_url : Option String
  timestamp : Int
  deriving Repr, DecidableEq

/-- One entry of a `following` list: a timestamped follow towards `targetFid`. -/
structure Follow where
  timestamp : Int
  targetFid : Int
  deriving Repr, DecidableEq

/-- One `follow_info` entry: the follows fetched for the account `fid`. -/
structure FollowInfo where
  fid : Int
  following : List Follow
  deriving Repr, DecidableEq

/-- An edge entry of the graph: key `(source, target)`, value the edge's
`timestamp` attribute. -/
abbrev EdgeEntry := (Int × Int) × Int

/-- The `networkx.DiGraph` model: insertion-ordered association lists.
A node whose attribute field is `none` was created implicitly (by
`add_edge`) and has an empty attribute dictionary. -/
structure DiGraph where
  nodes : List (Int × Option NodeAttrs)
  edges : List EdgeEntry
  deriving Repr, DecidableEq

/-- Keys of the node list. -/
def DiGraph.nodeIds (G : DiGraph) : List Int := G.nodes.map Prod.fst

/-- Keys of the edge list. -/
def DiGraph.edgeKeys (G : DiGraph) : List (Int × Int) := G.edges.map Prod.fst

/-- Insert-or-overwrite for the edge association list: `networkx`'s
`add_edge` keeps a single edge per ordered pair, later attribute writes
replacing earlier ones. -/
def upsertEdge (l : List EdgeEntry) (k : Int × Int) (ts : Int) : List EdgeEntry :=
  if (l.map Prod.fst).contains k then
    l.map (fun e => if e.1 = k then (k, ts) else e)
  else l ++ [(k, ts)]

/-- Insert-or-overwrite for the node association list: `networkx`'s
`add_node` with attributes. -/
def upsertNode (l : List (Int × Option NodeAttrs)) (n : Int) (a : NodeAttrs) :
    List (Int × Option NodeAttrs) :=
  if (l.map Prod.fst).contains n then
    l.map (fun p => if p.1 = n then (n, some a) else p)
  else l ++ [(n, some a)]

/-- `networkx` creates a node with an empty attribute dictionary when an
edge endpoint is not yet a node. -/
def DiGraph.ensureNode (G : DiGraph) (n : Int) : DiGraph :=
  if (G.nodes.map Prod.fst).contains n then G
  else { G with nodes := G.nodes ++ [(n, none)] }

/-- `G.add_edge(u, v, timestamp=ts)`: make sure both endpoints exist as
nodes, then insert or overwrite the edge `(u, v)`. -/
def DiGraph.addEdge (G : DiGraph) (u v : Int) (ts : Int) : DiGraph :=
  let G' := (G.ensureNode u).ensureNode v
  { G' with edges := upsertEdge G'.edges (u, v) ts }

/-- `G.add_node(fid, username=..., timestamp=..., avatar_url=...)`. -/
def DiGraph.addNode (G : DiGraph) (n : Int) (a : NodeAttrs) : DiGraph :=
  { G with nodes := upsertNode G.nodes n a }

/-- `create_graph(follow_info, user_data)` from `main.py`
(lines 123-142): one node per `user_data` entry, then for every follow a
directed edge `fid -> targetFid`, added only when `targetFid` is among the
`user_data` fids. -/
def create_graph (follow_info : List FollowInfo) (user_data : List Ident) : DiGraph :=
  let G0 : DiGraph := ⟨[], []⟩
  let G1 := user_data.foldl
    (fun G u => G.addNode u.fid ⟨u.username, u.timestamp, u.avatar_url⟩) G0
  follow_info.foldl (fun G user =>
    user.following.foldl (fun G f =>
      if (user_data.map (·.fid)).contains f.targetFid then
        G.addEdge user.fid f.targetFid f.timestamp
      else G) G) G1

/-- Well-formedness facts every `networkx.DiGraph` enjoys and which
`create_graph` establishes: node keys are distinct, edge keys are distinct,
and every edge endpoint is a node. -/
def DiGraph.WF (G : DiGraph) : Prop :=
  G.nodeIds.Nodup ∧ G.edgeKeys.Nodup ∧
    ∀ e ∈ G.edges, e.1.1 ∈ G.nodeIds ∧ e.1.2 ∈ G.nodeIds

instance (G : DiGraph) : Decidable G.WF := by
  unfold DiGraph.WF
  infer_instance

/-!
## The metrics engine (`calculate_graph_metrics`, lines 144-231)
-/

/-- The edge filter of `calculate_graph_metrics` (lines 150-153): keep an
edge when `start_time <= timestamp <= end_time` and both endpoints are in
`user_fids`. -/
def filteredEdges (G : DiGraph) (start_time end_time : Int) (user_fids : List Int) :
    List EdgeEntry :=
  G.edges.filter (fun e =>
    decide (start_time ≤ e.2) && decide (e.2 ≤ end_time) &&
      user_fids.contains e.1.1 && user_fids.contains e.1.2)

/-- The node filter of `calculate_graph_metrics` (line 157): keep the nodes
of the input graph that are in `user_fids`. -/
def filteredNodes (G : DiGraph) (user_fids : List Int) : List Int :=
  (G.nodes.map Prod.fst).filter (fun n => user_fids.contains n)

/-- Insertion of an integer into an ascending list (used to model Python's
`sorted`). -/
def insertAsc (x : Int) : List Int → List Int
  | [] => [x]
  | y :: ys => if x ≤ y then x :: y :: ys else y :: insertAsc x ys

/-- Python's `sorted` on a list of integer node ids. -/
def sortNodes (l : List Int) : List Int := l.foldr insertAsc []

/-- Whether the filtered edge list contains a directed edge `u -> v`. -/
def hasEdgeB (fe : List EdgeEntry) (u v : Int) : Bool :=
  fe.any (fun e => e.1.1 == u && e.1.2 == v)

/-- Direct successors of `u` in the filtered edge list. -/
def succsOf (fe : List EdgeEntry) (u : Int) : List Int :=
  (fe.filter (fun e => e.1.1 == u)).map (fun e => e.1.2)

/-- All directed walks with exactly `k` edges from `s` to `t`, each listed
as its full vertex sequence (so a walk with `k` edges is a list of `k + 1`
vertices).  This spells out the path structure underlying the library's
breadth-first shortest-path search and shortest-path counting. -/
def walksFrom (fe : List EdgeEntry) : Nat → Int → Int → List (List Int)
  | 0, s, t => if s = t then [[s]] else []
  | k + 1, s, t =>
    (succsOf fe s).flatMap (fun w => (walksFrom fe k w t).map (fun l => s :: l))

/-- `s` reaches `t` by some walk with exactly `k` edges. -/
def HasWalk (fe : List EdgeEntry) (k : Nat) (s t : Int) : Prop :=
  walksFrom fe k s t ≠ []

/-- Specification-side notion of a directed walk: a non-empty vertex
sequence starting at `s`, ending at `t`, each consecutive pair joined by a
directed edge of `fe`.  A walk over `l` has `l.length - 1` hops. -/
def IsDirWalk (fe : List EdgeEntry) (l : List Int) (s t : Int) : Prop :=
  l ≠ [] ∧ l.head? = some s ∧ l.getLast? = some t ∧
    l.Chain' (fun a b => hasEdgeB fe a b = true)

instance (fe : List EdgeEntry) (k : Nat) (s t : Int) : Decidable (HasWalk fe k s t) := by
  unfold HasWalk
  infer_instance

/-- The breadth-first shortest-path search: starting from candidate length
`k`, return the least walk length within the remaining `fuel` candidate
lengths, `none` if every candidate fails. -/
def spLenAux (fe : List EdgeEntry) (s t : Int) : Nat → Nat → Option Nat
  | 0, _ => none
  | fuel + 1, k => if (walksFrom fe k s t).isEmpty then spLenAux fe s t fuel (k + 1) else some k

/-- Model of `nx.all_pairs_shortest_path_length` at one ordered pair: the
length of a shortest directed walk from `s` to `t`, searched over lengths
`0, 1, ..., bound`, or `none` when `t` is unreachable from `s`.  The engine
instantiates `bound` with the number of filtered nodes, which suffices
because a shortest walk never repeats a vertex. -/
def spLen (fe : List EdgeEntry) (bound : Nat) (s t : Int) : Option Nat :=
  spLenAux fe s t (bound + 1) 0

/-- Number of shortest directed walks from `s` to `t` (0 when unreachable):
the `sigma(s, t)` of betweenness centrality. -/
def sigmaCount (fe : List EdgeEntry) (bound : Nat) (s t : Int) : Nat :=
  match spLen fe bound s t with
  | some d => (walksFrom fe d s t).length
  | none => 0

/-- Number of shortest directed walks from `s` to `t` that pass through `v`
(`sigma(s, t | v)`); meaningful for `v ≠ s` and `v ≠ t`. -/
def sigmaThrough (fe : List EdgeEntry) (bound : Nat) (s t v : Int) : Nat :=
  match spLen fe bound s t with
  | some d => ((walksFrom fe d s t).filter (fun l => l.contains v)).length
  | none => 0

/-- The pair dependency `sigma(s, t | v) / sigma(s, t)`, 0 when `t` is
unreachable from `s`. -/
def pairDependency (fe : List EdgeEntry) (bound : Nat) (s t v : Int) : ℚ :=
  if sigmaCount fe bound s t = 0 then 0
  else (sigmaThrough fe bound s t v : ℚ) / (sigmaCount fe bound s t : ℚ)

/-- Raw (unnormalized) directed betweenness of `v`: the sum of the pair
dependencies over all ordered pairs `(s, t)` with `s ≠ t`, `s ≠ v`,
`t ≠ v`. -/
def rawBetweenness (fe : List EdgeEntry) (bound : Nat) (nodes : List Int) (v : Int) : ℚ :=
  (nodes.map (fun s =>
    (nodes.map (fun t =>
      if s ≠ t ∧ s ≠ v ∧ t ≠ v then pairDependency fe bound s t v else 0)).sum)).sum

/-- Model of `nx.betweenness_centrality(filtered_graph)` at node `v`: the
default `normalized=True` divides the raw value by `(n - 1) * (n - 2)` for
a directed graph with `n > 2` nodes and leaves it unscaled for `n ≤ 2`. -/
def betweennessOf (fe : List EdgeEntry) (node_list : List Int) (v : Int) : ℚ :=
  let n := node_list.length
  let raw := rawBetweenness fe n node_list v
  if n ≤ 2 then raw else raw / (((n : ℚ) - 1) * ((n : ℚ) - 2))

/-- Undirected adjacency of the projection `filtered_graph.to_undirected()`
as used by the clustering computation: distinct vertices joined by a
directed edge in either direction. -/
def undirAdjB (fe : List EdgeEntry) (w x : Int) : Bool :=
  decide (w ≠ x) && (hasEdgeB fe w x || hasEdgeB fe x w)

/-- Neighbours of `v` in the undirected projection (`set(G[v]) - {v}`). -/
def nbrsList (fe : List EdgeEntry) (nodes : List Int) (v : Int) : List Int :=
  nodes.filter (fun w => undirAdjB fe v w)

/-- Twice the number of triangles at `v`: for each neighbour `w` of `v`,
the number of common neighbours of `v` and `w` — exactly the quantity the
library's clustering routine accumulates. -/
def triDouble (fe : List EdgeEntry) (nodes : List Int) (v : Int) : Nat :=
  ((nbrsList fe nodes v).map (fun w =>
    ((nbrsList fe nodes v).filter (fun x => undirAdjB fe w x)).length)).sum

/-- Model of `nx.clustering(undirected_graph)` at node `v`: with `t` twice
the triangle count and `d` the undirected degree, the coefficient is
`t / (d * (d - 1))`, and 0 when `t = 0` (in particular whenever `d < 2`). -/
def clusteringCoeff (fe : List EdgeEntry) (nodes : List Int) (v : Int) : ℚ :=
  let d := (nbrsList fe nodes v).length
  let t := triDouble fe nodes v
  if t = 0 then 0 else (t : ℚ) / ((d : ℚ) * ((d : ℚ) - 1))

/-- In-degree of `v` in the filtered graph. -/
def inDeg (fe : List EdgeEntry) (v : Int) : Nat :=
  (fe.filter (fun e => e.1.2 == v)).length

/-- Out-degree of `v` in the filtered graph. -/
def outDeg (fe : List EdgeEntry) (v : Int) : Nat :=
  (fe.filter (fun e => e.1.1 == v)).length

/-- The per-node metrics record of `calculate_graph_metrics`
(lines 213-221). -/
structure NodeMetrics where
  degree : Nat
  in_degree : Nat
  out_degree : Nat
  clustering_coefficient : ℚ
  betweenness_centrality : ℚ
  deriving Repr, DecidableEq

/-- The five per-node metrics for `v` (a `networkx` directed `degree` is
the sum of in- and out-degree). -/
def nodeMetricsFor (fe : List EdgeEntry) (node_list : List Int) (v : Int) : NodeMetrics :=
  { degree := inDeg fe v + outDeg fe v
    in_degree := inDeg fe v
    out_degree := outDeg fe v
    clustering_coefficient := clusteringCoeff fe node_list v
    betweenness_centrality := betweennessOf fe node_list v }

/-- The result record of `calculate_graph_metrics` (lines 223-231). -/
structure GraphMetrics where
  num_nodes : Nat
  num_edges : Nat
  density : ℚ
  avg_clustering : ℚ
  adjacency_matrix : List (List ℚ)
  shortest_path_matrix : List (List (Option Nat))
  node_metrics : List (Int × NodeMetrics)
  deriving Repr, DecidableEq

/-- The canonical empty result (lines 164-172). -/
def emptyMetrics : GraphMetrics :=
  { num_nodes := 0, num_edges := 0, density := 0, avg_clustering := 0,
    adjacency_matrix := [], shortest_path_matrix := [], node_metrics := [] }

/-- `calculate_graph_metrics(graph, start_time, end_time, user_fids)`
(lines 144-231): filter the graph, return the canonical empty result when
the filtered graph has no node or no edge, and otherwise compute every
metric over the canonical ascending node ordering. -/
def calculate_graph_metrics (graph : DiGraph) (start_time end_time : Int)
    (user_fids : List Int) : GraphMetrics :=
  let fe := filteredEdges graph start_time end_time user_fids
  let fn := filteredNodes graph user_fids
  if fn.isEmpty || fe.isEmpty then emptyMetrics
  else
    let node_list := sortNodes fn
    let n := node_list.length
    { num_nodes := fn.length
      num_edges := fe.length
      density := if n ≤ 1 then 0 else (fe.length : ℚ) / ((n : ℚ) * ((n : ℚ) - 1))
      avg_clustering := (node_list.map (fun v => clusteringCoeff fe node_list v)).sum / (n : ℚ)
      adjacency_matrix :=
        node_list.map (fun u => node_list.map (fun v => if hasEdgeB fe u v then (1 : ℚ) else 0))
      shortest_path_matrix :=
        node_list.map (fun u => node_list.map (fun v => spLen fe n u v))
      node_metrics := node_list.map (fun v => (v, nodeMetricsFor fe node_list v)) }

/-!
## The graph serializer (`graph_to_json`, lines 233-263)
-/

/-- A serialized node record (`{id, username, timestamp, avatar_url}`). -/
structure NodeRecord where
  id : Int
  username : String
  timestamp : Option Int
  avatar_url : Option String
  deriving Repr, DecidableEq

/-- A serialized link record (`{source, target, timestamp}`). -/
structure LinkRecord where
  source : Int
  target : Int
  timestamp : Int
  deriving Repr, DecidableEq

/-- The node record emitted for node `n` with attribute dictionary `a`:
`dict.get` with defaults `''` for `username` and `None` for `timestamp` and
`avatar_url`. -/
def mkNodeRecord (n : Int) (a : Option NodeAttrs) : NodeRecord :=
  { id := n
    username := (a.map (·.username)).getD ""
    timestamp := a.map (·.timestamp)
    avatar_url := (a.map (·.avatar_url)).getD none }

/-- `graph_to_json(G, user_fid_set)` (lines 233-263): one node record per
graph node in `user_fid_set`, one link record per edge with both endpoints
in `user_fid_set`. -/
def graph_to_json (G : DiGraph) (user_fid_set : List Int) :
    List NodeRecord × List LinkRecord :=
  let nodes : List NodeRecord :=
    (G.nodes.filter (fun p => user_fid_set.contains p.1)).map
      (fun (p : Int × Option NodeAttrs) => mkNodeRecord p.1 p.2)
  let links : List LinkRecord :=
    (G.edges.filter (fun e => user_fid_set.contains e.1.1 && user_fid_set.contains e.1.2)).map
      (fun e => ⟨e.1.1, e.1.2, e.2⟩)
  (nodes, links)

/-!
## The default time window (`get_graph_data`, lines 284-291)
-/

/-- The `all_timestamps` list of `get_graph_data` (lines 285-288): the
timestamps of edges with both endpoints in the known set, followed by the
`timestamp` attribute of every node in the known set.  Reading the
attribute of a node that has none raises in Python, modelled by `none`. -/
def all_timestamps (G : DiGraph) (user_fid_set : List Int) : Option (List Int) :=
  let edgeTs : List Int := (G.edges.filter
      (fun e => user_fid_set.contains e.1.1 && user_fid_set.contains e.1.2)).map (·.2)
  let nodeTs? : Option (List Int) :=
    (G.nodes.filter (fun p => user_fid_set.contains p.1)).mapM
      (fun (p : Int × Option NodeAttrs) => p.2.map (·.timestamp))
  nodeTs?.map (fun nodeTs => edgeTs ++ nodeTs)

/-- The window derivation of `get_graph_data` (lines 290-291):
`min(all_timestamps)` and `max(all_timestamps)` when the list is non-empty,
0 for both bounds otherwise. -/
def derive_window (G : DiGraph) (user_fid_set : List Int) : Option (Int × Int) :=
  (all_timestamps G user_fid_set).map (fun ts => ((ts.min?).getD 0, (ts.max?).getD 0))

/-!
## Observations used to state the last-write-wins property
-/

/-- Lookup on an edge association list: the attribute stored for the
ordered pair `k` (the first — under well-formedness, unique — entry). -/
def edgeLookupL (l : List EdgeEntry) (k : Int × Int) : Option Int :=
  (l.find? (fun e => e.1 == k)).map (·.2)

/-- The timestamp stored for the ordered pair `k` in graph `G`
(`G[u][v]['timestamp']` in Python). -/
def edgeLookup (G : DiGraph) (k : Int × Int) : Option Int :=
  edgeLookupL G.edges k

/-- The follows that pass the build-time target filter, in processing
order, written as the edge entries `create_graph` adds. -/
def passingFollows (fi : List FollowInfo) (ud : List Ident) : List EdgeEntry :=
  fi.flatMap (fun user =>
    (user.following.filter (fun f => (ud.map (·.fid)).contains f.targetFid)).map
      (fun f => ((user.fid, f.targetFid), f.timestamp)))

/-- The value of the LAST entry with key `k` in a list of edge writes: the
later-processed duplicate. -/
def lastWrite (l : List EdgeEntry) (k : Int × Int) : Option Int :=
  (l.reverse.find? (fun e => e.1 == k)).map (·.2)

/-- The per-node metrics record reported for node `v`
(`node_metrics[v]` in the JSON result). -/
def getNodeMetric (m : GraphMetrics) (v : Int) : Option NodeMetrics :=
  (m.node_metrics.find? (fun p => p.1 == v)).map (·.2)

/-- Specification-side count for the clustering formula: the set of
undirected edges among the neighbours of `v`, each unordered pair
represented once, by its increasing orientation. -/
def undirEdgesAmongNbrs (fe : List EdgeEntry) (nodes : List Int) (v : Int) :
    Finset (Int × Int) :=
  ((nbrsList fe nodes v).toFinset ×ˢ (nbrsList fe nodes v).toFinset).filter
    (fun p => p.1 < p.2 ∧ undirAdjB fe p.1 p.2 = true)

/-!
## Concrete sample inputs used by the witnesses and counterexamples
-/

/-- Three resolved identities with ids 1, 2, 3. -/
def udSample : List Ident :=
  [⟨"alice", 1, none, 100⟩, ⟨"bob", 2, none, 100⟩, ⟨"carol", 3, none, 100⟩]

/-- Follow data forming the directed path `1 -> 2 -> 3`. -/
def fiPath : List FollowInfo := [⟨1, [⟨10, 2⟩]⟩, ⟨2, [⟨20, 3⟩]⟩]

/-- The assembled path graph. -/
def Gpath : DiGraph := create_graph fiPath udSample

/-- Follow data forming the directed cycle `1 -> 2 -> 3 -> 1`. -/
def fiCycle : List FollowInfo := [⟨1, [⟨10, 2⟩]⟩, ⟨2, [⟨10, 3⟩]⟩, ⟨3, [⟨10, 1⟩]⟩]

/-- The assembled three-cycle graph. -/
def Gcycle : DiGraph := create_graph fiCycle udSample

/-- A single resolved identity with id 1. -/
def udOne : List Ident := [⟨"alice", 1, none, 100⟩]

/-- Follow data whose only follow is attributed to the source id 99,
which is not a resolved identity; its target id 1 is resolved. -/
def fiForeign : List FollowInfo := [⟨99, [⟨5, 1⟩]⟩]

/-- The graph assembled from `fiForeign`/`udOne`: it contains the edge
`99 -> 1` and an implicitly created, attribute-less node 99. -/
def Gforeign : DiGraph := create_graph fiForeign udOne

/-!
## General lemmas
-/

instance : Std.Antisymm (fun (x1 x2 : Int) => x1 ≤ x2) :=
  ⟨@fun _ _ h h' => le_antisymm h h'⟩

theorem contains_true_iff {α : Type} [BEq α] [LawfulBEq α] {l : List α} {a : α} :
    l.contains a = true ↔ a ∈ l := by simp

theorem mem_filteredNodes {G : DiGraph} {K : List Int} {n : Int} :
    n ∈ filteredNodes G K ↔ n ∈ G.nodeIds ∧ n ∈ K := by
  simp [filteredNodes, DiGraph.nodeIds, List.mem_filter]

theorem mem_filteredEdges {G : DiGraph} {s e : Int} {K : List Int} {u v ts : Int} :
    ((u, v), ts) ∈ filteredEdges G s e K ↔
      ((u, v), ts) ∈ G.edges ∧ (s ≤ ts ∧ ts ≤ e) ∧ u ∈ K ∧ v ∈ K := by
  simp [filteredEdges, List.mem_filter, and_assoc]

theorem filteredEdges_eq_nil_of_lt {G : DiGraph} {s e : Int} {K : List Int} (h : e < s) :
    filteredEdges G s e K = [] := by
  apply List.filter_eq_nil_iff.mpr
  intro x _ hc
  simp only [Bool.and_eq_true, decide_eq_true_eq] at hc
  omega

theorem mem_upsertEdge {l : List EdgeEntry} {k : Int × Int} {ts : Int} {e : EdgeEntry}
    (h : e ∈ upsertEdge l k ts) : e = (k, ts) ∨ e ∈ l := by
  unfold upsertEdge at h
  split at h
  · rcases List.mem_map.mp h with ⟨x, hx, hfx⟩
    by_cases hk : x.1 = k
    · simp [hk] at hfx
      exact Or.inl hfx.symm
    · simp [hk] at hfx
      exact Or.inr (hfx ▸ hx)
  · rcases List.mem_append.mp h with h | h
    · exact Or.inr h
    · exact Or.inl (List.mem_singleton.mp h)

theorem addEdge_edges (G : DiGraph) (u v ts : Int) :
    (G.addEdge u v ts).edges = upsertEdge G.edges (u, v) ts := by
  unfold DiGraph.addEdge DiGraph.ensureNode
  split <;> split <;> rfl

theorem addNode_edges (G : DiGraph) (n : Int) (a : NodeAttrs) :
    (G.addNode n a).edges = G.edges := rfl

theorem nodeBuild_edges (ud : List Ident) :
    ∀ G : DiGraph,
      ((ud.foldl (fun G u => G.addNode u.fid ⟨u.username, u.timestamp, u.avatar_url⟩) G).edges
        = G.edges) := by
  induction ud with
  | nil => intro G; rfl
  | cons u ud ih =>
    intro G
    rw [List.foldl_cons, ih, addNode_edges]

/-- Every edge retained by the inner follow-processing fold either comes
from a passing follow of source `u` or was already present. -/
theorem followFold_edges_sub (ud : List Ident) (u : Int) :
    ∀ (fl : List Follow) (G : DiGraph) (ed : EdgeEntry),
      ed ∈ (fl.foldl (fun G f =>
          if (ud.map (·.fid)).contains f.targetFid then
            G.addEdge u f.targetFid f.timestamp
          else G) G).edges →
      (∃ f ∈ fl, (ud.map (·.fid)).contains f.targetFid ∧
          ed = ((u, f.targetFid), f.timestamp)) ∨ ed ∈ G.edges := by
  intro fl
  induction fl with
  | nil => intro G ed h; exact Or.inr h
  | cons f fl ih =>
    intro G ed h
    rw [List.foldl_cons] at h
    rcases ih _ ed h with ⟨f', hf', hc, hed⟩ | h2
    · exact Or.inl ⟨f', List.mem_cons_of_mem _ hf', hc, hed⟩
    · by_cases hc : (ud.map (·.fid)).contains f.targetFid
      · rw [if_pos hc] at h2
        rw [addEdge_edges] at h2
        rcases mem_upsertEdge h2 with h3 | h3
        · exact Or.inl ⟨f, List.mem_cons_self _ _, hc, h3⟩
        · exact Or.inr h3
      · rw [if_neg hc] at h2
        exact Or.inr h2

theorem edgeLookupL_cons (e : EdgeEntry) (l : List EdgeEntry) (k : Int × Int) :
    edgeLookupL (e :: l) k = if e.1 = k then some e.2 else edgeLookupL l k := by
  by_cases h : e.1 = k
  · simp [edgeLookupL, List.find?_cons_of_pos, h]
  · rw [if_neg h]
    unfold edgeLookupL
    rw [List.find?_cons_of_neg]
    simpa using h

theorem edgeLookupL_map_update (k' : Int × Int) (ts : Int) :
    ∀ (l : List EdgeEntry) (k : Int × Int),
      edgeLookupL (l.map (fun e => if e.1 = k' then (k', ts) else e)) k =
        if k = k' then (edgeLookupL l k').map (fun _ => ts) else edgeLookupL l k := by
  intro l
  induction l with
  | nil => intro k; simp [edgeLookupL]
  | cons e l ih =>
    intro k
    rw [List.map_cons]
    by_cases he : e.1 = k'
    · by_cases hk : k = k'
      · subst hk
        simp [edgeLookupL_cons, he]
      · have hk' : ¬ k' = k := fun h => hk h.symm
        simp [edgeLookupL_cons, he, hk, hk', ih]
    · by_cases hek : e.1 = k
      · have hkk' : ¬ k = k' := fun h => he (hek.trans h)
        simp [edgeLookupL_cons, he, hek, hkk']
      · simp [edgeLookupL_cons, he, hek, ih]

theorem edgeLookupL_append_single (k' : Int × Int) (ts : Int) :
    ∀ (l : List EdgeEntry) (k : Int × Int),
      edgeLookupL (l ++ [(k', ts)]) k =
        if (edgeLookupL l k).isSome then edgeLookupL l k
        else if k = k' then some ts else none := by
  intro l
  induction l with
  | nil =>
    intro k
    simp only [List.nil_append, edgeLookupL_cons]
    by_cases hk : k = k'
    · simp [edgeLookupL, hk]
    · have hk' : ¬ k' = k := fun h => hk h.symm
      simp [edgeLookupL, hk, hk']
  | cons e l ih =>
    intro k
    rw [List.cons_append, edgeLookupL_cons, edgeLookupL_cons]
    by_cases hek : e.1 = k
    · simp [hek]
    · rw [if_neg hek, if_neg hek, ih k]

theorem contains_iff_edgeLookupL_isSome (l : List EdgeEntry) (k : Int × Int) :
    (l.map Prod.fst).contains k = true ↔ (edgeLookupL l k).isSome := by
  induction l with
  | nil => simp [edgeLookupL]
  | cons e l ih =>
    rw [List.map_cons, edgeLookupL_cons]
    by_cases hek : e.1 = k
    · simp [hek]
    · rw [if_neg hek]
      have hek' : ¬ k = e.1 := fun h => hek h.symm
      simpa [hek, hek'] using ih

theorem edgeLookupL_upsert (l : List EdgeEntry) (k' : Int × Int) (ts : Int) (k : Int × Int) :
    edgeLookupL (upsertEdge l k' ts) k =
      if k = k' then some ts else edgeLookupL l k := by
  unfold upsertEdge
  by_cases hc : (l.map Prod.fst).contains k' = true
  · rw [if_pos hc, edgeLookupL_map_update]
    by_cases hk : k = k'
    · rw [if_pos hk, if_pos hk]
      rcases Option.isSome_iff_exists.mp ((contains_iff_edgeLookupL_isSome l k').mp hc)
        with ⟨t, ht⟩
      rw [ht]
      rfl
    · rw [if_neg hk, if_neg hk]
  · rw [if_neg hc, edgeLookupL_append_single]
    by_cases hk : k = k'
    · subst hk
      have : edgeLookupL l k = none := by
        rcases h : edgeLookupL l k with _ | t
        · rfl
        · exact absurd ((contains_iff_edgeLookupL_isSome l k).mpr (by simp [h])) hc
      simp [this]
    · rw [if_neg hk]
      rcases h : edgeLookupL l k with _ | t
      · simp [hk]
      · simp [hk]

theorem upsertEdge_keys (l : List EdgeEntry) (k' : Int × Int) (ts : Int) :
    (upsertEdge l k' ts).map Prod.fst =
      if (l.map Prod.fst).contains k' then l.map Prod.fst
      else l.map Prod.fst ++ [k'] := by
  unfold upsertEdge
  by_cases hc : (l.map Prod.fst).contains k' = true
  · rw [if_pos hc, if_pos hc, List.map_map]
    apply List.map_congr_left
    intro e _
    by_cases he : e.1 = k' <;> simp [he]
  · rw [if_neg hc, if_neg hc, List.map_append]
    rfl

theorem upsertEdge_keys_nodup {l : List EdgeEntry} (h : (l.map Prod.fst).Nodup)
    (k' : Int × Int) (ts : Int) : ((upsertEdge l k' ts).map Prod.fst).Nodup := by
  rw [upsertEdge_keys]
  by_cases hc : (l.map Prod.fst).contains k' = true
  · rwa [if_pos hc]
  · rw [if_neg hc]
    refine List.Nodup.append h (List.nodup_singleton k') ?_
    intro x hx hx'
    rw [List.mem_singleton] at hx'
    exact hc (hx' ▸ contains_true_iff.mpr hx)

theorem addEdge_keys_nodup {G : DiGraph} (h : G.edgeKeys.Nodup) (u v ts : Int) :
    (G.addEdge u v ts).edgeKeys.Nodup := by
  unfold DiGraph.edgeKeys
  rw [addEdge_edges]
  exact upsertEdge_keys_nodup h (u, v) ts

theorem foldl_addEdge_lookup :
    ∀ (ps : List EdgeEntry) (G : DiGraph) (k : Int × Int),
      edgeLookup (ps.foldl (fun G e => G.addEdge e.1.1 e.1.2 e.2) G) k =
        if (lastWrite ps k).isSome then lastWrite ps k else edgeLookup G k := by
  intro ps
  induction ps with
  | nil => intro G k; simp [lastWrite]
  | cons p ps ih =>
    intro G k
    have hps : lastWrite (p :: ps) k =
        if (lastWrite ps k).isSome then lastWrite ps k
        else if p.1 = k then some p.2 else none := by
      unfold lastWrite
      rw [List.reverse_cons, List.find?_append]
      rcases h : (ps.reverse.find? (fun e => e.1 == k)) with _ | e
      · by_cases hp : p.1 = k
        · simp [h, hp]
        · simp [h, hp]
      · simp [h]
    rw [List.foldl_cons, ih, hps]
    have hlk : edgeLookup (G.addEdge p.1.1 p.1.2 p.2) k =
        if k = p.1 then some p.2 else edgeLookup G k := by
      unfold edgeLookup
      rw [addEdge_edges]
      exact edgeLookupL_upsert G.edges p.1 p.2 k
    rcases h : lastWrite ps k with _ | t
    · rw [hlk]
      by_cases hp : p.1 = k
      · have hp' : k = p.1 := hp.symm
        simp only [Option.isSome_none, Bool.false_eq_true, if_false, if_pos hp, if_pos hp',
          Option.isSome_some, if_true]
      · have hp' : ¬ k = p.1 := fun hh => hp hh.symm
        simp only [Option.isSome_none, Bool.false_eq_true, if_false, if_neg hp, if_neg hp']
    · simp

theorem foldl_addEdge_keys_nodup :
    ∀ (ps : List EdgeEntry) (G : DiGraph), G.edgeKeys.Nodup →
      ((ps.foldl (fun G e => G.addEdge e.1.1 e.1.2 e.2) G).edgeKeys).Nodup := by
  intro ps
  induction ps with
  | nil => intro G h; exact h
  | cons p ps ih =>
    intro G h
    rw [List.foldl_cons]
    exact ih _ (addEdge_keys_nodup h _ _ _)

theorem followFold_eq_addEdge_fold (ud : List Ident) (u : Int) :
    ∀ (fl : List Follow) (G : DiGraph),
      fl.foldl (fun G f =>
          if (ud.map (·.fid)).contains f.targetFid then
            G.addEdge u f.targetFid f.timestamp
          else G) G =
        ((fl.filter (fun f => (ud.map (·.fid)).contains f.targetFid)).map
            (fun f => ((u, f.targetFid), f.timestamp))).foldl
          (fun G e => G.addEdge e.1.1 e.1.2 e.2) G := by
  intro fl
  induction fl with
  | nil => intro G; rfl
  | cons f fl ih =>
    intro G
    rw [List.foldl_cons]
    by_cases hc : (ud.map (·.fid)).contains f.targetFid = true
    · rw [if_pos hc, ih, List.filter_cons, if_pos hc, List.map_cons, List.foldl_cons]
    · rw [if_neg hc, ih, List.filter_cons, if_neg hc]

theorem create_graph_eq_addEdge_fold (fi : List FollowInfo) (ud : List Ident) :
    ∀ G : DiGraph,
      fi.foldl (fun G user =>
          user.following.foldl (fun G f =>
            if (ud.map (·.fid)).contains f.targetFid then
              G.addEdge user.fid f.targetFid f.timestamp
            else G) G) G =
        (passingFollows fi ud).foldl (fun G e => G.addEdge e.1.1 e.1.2 e.2) G := by
  induction fi with
  | nil => intro G; rfl
  | cons user fi ih =>
    intro G
    have hsplit : passingFollows (user :: fi) ud =
        ((user.following.filter (fun f => (ud.map (·.fid)).contains f.targetFid)).map
            (fun f => ((user.fid, f.targetFid), f.timestamp))) ++ passingFollows fi ud := by
      unfold passingFollows
      rw [List.flatMap_cons]
    rw [List.foldl_cons, ih, hsplit, List.foldl_append, followFold_eq_addEdge_fold]

theorem mem_upsertNode {l : List (Int × Option NodeAttrs)} {n : Int} {a : NodeAttrs}
    {p : Int × Option NodeAttrs} (h : p ∈ upsertNode l n a) :
    p = (n, some a) ∨ p ∈ l := by
  unfold upsertNode at h
  split at h
  · rcases List.mem_map.mp h with ⟨x, hx, hfx⟩
    by_cases hk : x.1 = n
    · simp only [if_pos hk] at hfx
      exact Or.inl hfx.symm
    · simp only [if_neg hk] at hfx
      exact Or.inr (hfx ▸ hx)
  · rcases List.mem_append.mp h with h | h
    · exact Or.inr h
    · exact Or.inl (List.mem_singleton.mp h)

theorem upsertNode_keys (l : List (Int × Option NodeAttrs)) (n : Int) (a : NodeAttrs) :
    (upsertNode l n a).map Prod.fst =
      if (l.map Prod.fst).contains n then l.map Prod.fst else l.map Prod.fst ++ [n] := by
  unfold upsertNode
  by_cases hc : (l.map Prod.fst).contains n = true
  · rw [if_pos hc, if_pos hc, List.map_map]
    apply List.map_congr_left
    intro p _
    by_cases hp : p.1 = n <;> simp [hp]
  · rw [if_neg hc, if_neg hc, List.map_append]
    rfl

theorem mem_keys_upsertNode {l : List (Int × Option NodeAttrs)} {n : Int} {a : NodeAttrs}
    {m : Int} : m ∈ (upsertNode l n a).map Prod.fst ↔ m ∈ l.map Prod.fst ∨ m = n := by
  rw [upsertNode_keys]
  by_cases hc : (l.map Prod.fst).contains n = true
  · rw [if_pos hc]
    constructor
    · exact Or.inl
    · rintro (h | h)
      · exact h
      · exact h ▸ contains_true_iff.mp hc
  · rw [if_neg hc]
    simp

/-- The invariant carried through graph construction for the known-id set:
every known id is a node, and every node with a known id has attributes. -/
def KnownAttrs (G : DiGraph) (ids : List Int) : Prop :=
  (∀ n ∈ ids, n ∈ G.nodeIds) ∧ ∀ p ∈ G.nodes, p.1 ∈ ids → p.2.isSome

theorem KnownAttrs_ensureNode {G : DiGraph} {ids : List Int} (h : KnownAttrs G ids)
    (n : Int) : KnownAttrs (G.ensureNode n) ids := by
  unfold DiGraph.ensureNode
  by_cases hc : (G.nodes.map Prod.fst).contains n = true
  · rwa [if_pos hc]
  · rw [if_neg hc]
    constructor
    · intro m hm
      simp only [DiGraph.nodeIds, List.map_append, List.mem_append]
      exact Or.inl (h.1 m hm)
    · intro p hp hid
      rcases List.mem_append.mp hp with hp | hp
      · exact h.2 p hp hid
      · rw [List.mem_singleton] at hp
        subst hp
        exact absurd (contains_true_iff.mpr (h.1 n hid)) hc

theorem KnownAttrs_addEdge {G : DiGraph} {ids : List Int} (h : KnownAttrs G ids)
    (u v ts : Int) : KnownAttrs (G.addEdge u v ts) ids := by
  have hn : (G.addEdge u v ts).nodes = ((G.ensureNode u).ensureNode v).nodes := rfl
  have h2 := KnownAttrs_ensureNode (KnownAttrs_ensureNode h u) v
  unfold KnownAttrs DiGraph.nodeIds at h2 ⊢
  rw [hn]
  exact h2

theorem KnownAttrs_followFold {ud : List Ident} {ids : List Int} {u : Int} :
    ∀ (fl : List Follow) (G : DiGraph), KnownAttrs G ids →
      KnownAttrs (fl.foldl (fun G f =>
        if (ud.map (·.fid)).contains f.targetFid then
          G.addEdge u f.targetFid f.timestamp
        else G) G) ids := by
  intro fl
  induction fl with
  | nil => intro G h; exact h
  | cons f fl ih =>
    intro G h
    rw [List.foldl_cons]
    by_cases hc : (ud.map (·.fid)).contains f.targetFid = true
    · rw [if_pos hc]
      exact ih _ (KnownAttrs_addEdge h _ _ _)
    · rw [if_neg hc]
      exact ih _ h

theorem KnownAttrs_outerFold {ud : List Ident} {ids : List Int} :
    ∀ (fi : List FollowInfo) (G : DiGraph), KnownAttrs G ids →
      KnownAttrs (fi.foldl (fun G user =>
        user.following.foldl (fun G f =>
          if (ud.map (·.fid)).contains f.targetFid then
            G.addEdge user.fid f.targetFid f.timestamp
          else G) G) G) ids := by
  intro fi
  induction fi with
  | nil => intro G h; exact h
  | cons user fi ih =>
    intro G h
    rw [List.foldl_cons]
    exact ih _ (KnownAttrs_followFold user.following G h)

theorem nodeBuild_attrs_isSome (ud : List Ident) :
    ∀ (G : DiGraph), (∀ p ∈ G.nodes, p.2.isSome) →
      ∀ p ∈ (ud.foldl (fun G u =>
          G.addNode u.fid ⟨u.username, u.timestamp, u.avatar_url⟩) G).nodes,
        p.2.isSome := by
  induction ud with
  | nil => intro G h; exact h
  | cons u ud ih =>
    intro G h
    rw [List.foldl_cons]
    apply ih
    intro p hp
    rcases mem_upsertNode hp with h1 | h1
    · rw [h1]; rfl
    · exact h p h1

theorem nodeBuild_keys_mono (ud : List Ident) :
    ∀ (G : DiGraph) (n : Int), n ∈ G.nodeIds →
      n ∈ (ud.foldl (fun G u =>
        G.addNode u.fid ⟨u.username, u.timestamp, u.avatar_url⟩) G).nodeIds := by
  induction ud with
  | nil => intro G n h; exact h
  | cons u ud ih =>
    intro G n h
    rw [List.foldl_cons]
    exact ih _ n (mem_keys_upsertNode.mpr (Or.inl h))

theorem nodeBuild_keys_cover (ud : List Ident) :
    ∀ (G : DiGraph) (u : Ident), u ∈ ud →
      u.fid ∈ (ud.foldl (fun G u =>
        G.addNode u.fid ⟨u.username, u.timestamp, u.avatar_url⟩) G).nodeIds := by
  induction ud with
  | nil => intro G u h; exact absurd h (List.not_mem_nil u)
  | cons u' ud ih =>
    intro G u h
    rw [List.foldl_cons]
    rcases List.mem_cons.mp h with h | h
    · subst h
      exact nodeBuild_keys_mono ud _ u.fid (mem_keys_upsertNode.mpr (Or.inr rfl))
    · exact ih _ u h

theorem create_graph_KnownAttrs (fi : List FollowInfo) (ud : List Ident) :
    KnownAttrs (create_graph fi ud) (ud.map (·.fid)) := by
  unfold create_graph
  apply KnownAttrs_outerFold
  constructor
  · intro n hn
    rcases List.mem_map.mp hn with ⟨u, hu, hun⟩
    exact hun ▸ nodeBuild_keys_cover ud _ u hu
  · intro p hp _
    exact nodeBuild_attrs_isSome ud _ (fun p hp => absurd hp (List.not_mem_nil p)) p hp

theorem mapM_timestamp_of_isSome :
    ∀ (l : List (Int × Option NodeAttrs)), (∀ p ∈ l, p.2.isSome) →
      l.mapM (fun (p : Int × Option NodeAttrs) => p.2.map (·.timestamp)) =
        some (l.filterMap (fun p => p.2.map (·.timestamp))) := by
  intro l
  induction l with
  | nil => intro _; rfl
  | cons p l ih =>
    intro h
    rcases Option.isSome_iff_exists.mp (h p (List.mem_cons_self p l)) with ⟨a, ha⟩
    rw [List.mapM_cons, ih (fun q hq => h q (List.mem_cons_of_mem p hq))]
    simp [ha]

/-- Every edge retained by the outer fold over `follow_info` either comes
from some passing follow or was already present. -/
theorem outerFold_edges_sub (ud : List Ident) :
    ∀ (fi : List FollowInfo) (G : DiGraph) (ed : EdgeEntry),
      ed ∈ (fi.foldl (fun G user =>
          user.following.foldl (fun G f =>
            if (ud.map (·.fid)).contains f.targetFid then
              G.addEdge user.fid f.targetFid f.timestamp
            else G) G) G).edges →
      (∃ user ∈ fi, ∃ f ∈ user.following, (ud.map (·.fid)).contains f.targetFid ∧
          ed = ((user.fid, f.targetFid), f.timestamp)) ∨ ed ∈ G.edges := by
  intro fi
  induction fi with
  | nil => intro G ed h; exact Or.inr h
  | cons user fi ih =>
    intro G ed h
    rw [List.foldl_cons] at h
    rcases ih _ ed h with ⟨user', hu', hrest⟩ | h2
    · exact Or.inl ⟨user', List.mem_cons_of_mem _ hu', hrest⟩
    · rcases followFold_edges_sub ud user.fid user.following G ed h2 with ⟨f, hf, hc, hed⟩ | h3
      · exact Or.inl ⟨user, List.mem_cons_self _ _, f, hf, hc, hed⟩
      · exact Or.inr h3

/-- Every edge of the built graph comes from a passing follow: in
particular its target is one of the `user_data` fids. -/
theorem create_graph_edges_sub (fi : List FollowInfo) (ud : List Ident) :
    ∀ ed ∈ (create_graph fi ud).edges,
      ∃ user ∈ fi, ∃ f ∈ user.following, (ud.map (·.fid)).contains f.targetFid ∧
          ed = ((user.fid, f.targetFid), f.timestamp) := by
  intro ed h
  unfold create_graph at h
  rcases outerFold_edges_sub ud fi _ ed h with h2 | h2
  · exact h2
  · rw [nodeBuild_edges] at h2
    exact absurd h2 (List.not_mem_nil ed)

/-!
## Sorting lemmas (`sorted(...)` = ascending canonical ordering)
-/

theorem sortNodes_cons (x : Int) (xs : List Int) :
    sortNodes (x :: xs) = insertAsc x (sortNodes xs) := rfl

theorem insertAsc_eq_orderedInsert (x : Int) : ∀ l : List Int,
    insertAsc x l = List.orderedInsert (· ≤ ·) x l
  | [] => rfl
  | y :: ys => by
    unfold insertAsc List.orderedInsert
    rw [insertAsc_eq_orderedInsert x ys]

theorem sortNodes_eq_insertionSort : ∀ l : List Int,
    sortNodes l = List.insertionSort (· ≤ ·) l
  | [] => rfl
  | x :: xs => by
    rw [sortNodes_cons, insertAsc_eq_orderedInsert, sortNodes_eq_insertionSort xs]
    rfl

theorem sortNodes_sorted (l : List Int) : (sortNodes l).Sorted (· ≤ ·) := by
  rw [sortNodes_eq_insertionSort]
  exact List.sorted_insertionSort _ l

theorem sortNodes_perm (l : List Int) : (sortNodes l).Perm l := by
  rw [sortNodes_eq_insertionSort]
  exact List.perm_insertionSort _ l

theorem sortNodes_mem {l : List Int} {x : Int} : x ∈ sortNodes l ↔ x ∈ l :=
  (sortNodes_perm l).mem_iff

theorem sortNodes_length (l : List Int) : (sortNodes l).length = l.length :=
  (sortNodes_perm l).length_eq

theorem sortNodes_nodup {l : List Int} (h : l.Nodup) : (sortNodes l).Nodup :=
  ((sortNodes_perm l).nodup_iff).mpr h

/-!
## Walk lemmas
-/

theorem mem_succsOf {fe : List EdgeEntry} {s w : Int} :
    w ∈ succsOf fe s ↔ hasEdgeB fe s w = true := by
  simp only [succsOf, hasEdgeB, List.mem_map, List.mem_filter, List.any_eq_true,
    Bool.and_eq_true, beq_iff_eq]
  constructor
  · rintro ⟨e, ⟨he, h1⟩, h2⟩
    exact ⟨e, he, h1, h2⟩
  · rintro ⟨e, he, h1, h2⟩
    exact ⟨e, ⟨he, h1⟩, h2⟩

theorem getLast?_cons_of_ne_nil {α : Type} {l : List α} (h : l ≠ []) (a : α) :
    (a :: l).getLast? = l.getLast? := by
  cases l with
  | nil => exact absurd rfl h
  | cons b l => exact List.getLast?_cons_cons

theorem mem_walksFrom_iff {fe : List EdgeEntry} :
    ∀ {k : Nat} {s t : Int} {l : List Int},
      l ∈ walksFrom fe k s t ↔ l.length = k + 1 ∧ IsDirWalk fe l s t := by
  intro k
  induction k with
  | zero =>
    intro s t l
    constructor
    · intro h
      unfold walksFrom at h
      split at h
      · next hst =>
          rw [List.mem_singleton] at h
          subst h
          subst hst
          exact ⟨rfl, by simp [IsDirWalk], by simp [IsDirWalk], by simp [IsDirWalk]⟩
      · exact absurd h (List.not_mem_nil l)
    · rintro ⟨hlen, hne, hhead, hlast, _⟩
      rcases l with _ | ⟨x, l'⟩
      · exact absurd rfl hne
      · have : l' = [] := by
          have := List.length_eq_zero.mp (by simpa using hlen)
          exact this
        subst this
        have hx : x = s := by simpa using hhead
        have hx' : x = t := by simpa using hlast
        subst hx
        unfold walksFrom
        rw [if_pos hx']
        simp
  | succ k ih =>
    intro s t l
    constructor
    · intro h
      unfold walksFrom at h
      rcases List.mem_flatMap.mp h with ⟨w, hw, hl⟩
      rcases List.mem_map.mp hl with ⟨l', hl', rfl⟩
      obtain ⟨hlen, hne, hhead, hlast, hchain⟩ := ih.mp hl'
      refine ⟨by simp [hlen], List.cons_ne_nil s l', by simp, ?_, ?_⟩
      · rw [getLast?_cons_of_ne_nil hne s]
        exact hlast
      · rw [List.chain'_cons']
        refine ⟨?_, hchain⟩
        intro y hy
        rw [hhead] at hy
        rw [Option.mem_some_iff] at hy
        subst hy
        exact mem_succsOf.mp hw
    · rintro ⟨hlen, hne, hhead, hlast, hchain⟩
      rcases l with _ | ⟨x, l'⟩
      · exact absurd rfl hne
      · have hx : x = s := by simpa using hhead
        subst hx
        have hne' : l' ≠ [] := by
          intro hcon
          subst hcon
          simp at hlen
        rcases List.exists_cons_of_ne_nil hne' with ⟨w, l'', rfl⟩
        rw [List.chain'_cons'] at hchain
        unfold walksFrom
        rw [List.mem_flatMap]
        refine ⟨w, mem_succsOf.mpr (hchain.1 w rfl), ?_⟩
        rw [List.mem_map]
        rw [List.getLast?_cons_cons] at hlast
        exact ⟨w :: l'', ih.mpr ⟨by simpa using hlen, List.cons_ne_nil w l'', rfl, hlast,
          hchain.2⟩, rfl⟩

theorem hasWalk_iff_exists_dirWalk {fe : List EdgeEntry} {k : Nat} {s t : Int} :
    HasWalk fe k s t ↔ ∃ l, IsDirWalk fe l s t ∧ l.length = k + 1 := by
  constructor
  · intro h
    rcases List.exists_mem_of_ne_nil _ h with ⟨l, hl⟩
    obtain ⟨hlen, hw⟩ := mem_walksFrom_iff.mp hl
    exact ⟨l, hw, hlen⟩
  · rintro ⟨l, hw, hlen⟩
    exact List.ne_nil_of_mem (mem_walksFrom_iff.mpr ⟨hlen, hw⟩)

/-!
## Shortest-path search lemmas
-/

theorem spLenAux_some {fe : List EdgeEntry} {s t : Int} :
    ∀ {fuel k d : Nat}, spLenAux fe s t fuel k = some d →
      k ≤ d ∧ d < k + fuel ∧ HasWalk fe d s t ∧
        ∀ j, k ≤ j → j < d → ¬ HasWalk fe j s t := by
  intro fuel
  induction fuel with
  | zero => intro k d h; exact absurd h (by simp [spLenAux])
  | succ fuel ih =>
    intro k d h
    unfold spLenAux at h
    by_cases hw : (walksFrom fe k s t).isEmpty = true
    · rw [if_pos hw] at h
      obtain ⟨h1, h2, h3, h4⟩ := ih h
      refine ⟨by omega, by omega, h3, ?_⟩
      intro j hj1 hj2
      by_cases hjk : j = k
      · subst hjk
        exact fun hcon => hcon (List.isEmpty_iff.mp hw)
      · exact h4 j (by omega) hj2
    · rw [if_neg hw] at h
      injection h with h
      subst h
      refine ⟨le_refl k, by omega, ?_, ?_⟩
      · intro hcon
        rw [hcon] at hw
        exact hw rfl
      · intro j hj1 hj2
        omega

theorem spLenAux_none {fe : List EdgeEntry} {s t : Int} :
    ∀ {fuel k : Nat}, spLenAux fe s t fuel k = none →
      ∀ j, k ≤ j → j < k + fuel → ¬ HasWalk fe j s t := by
  intro fuel
  induction fuel with
  | zero => intro k _ j h1 h2; omega
  | succ fuel ih =>
    intro k h j hj1 hj2
    unfold spLenAux at h
    by_cases hw : (walksFrom fe k s t).isEmpty = true
    · rw [if_pos hw] at h
      by_cases hjk : j = k
      · subst hjk
        exact fun hcon => hcon (List.isEmpty_iff.mp hw)
      · exact ih h j (by omega) (by omega)
    · rw [if_neg hw] at h
      exact absurd h (by simp)

theorem spLen_some_min {fe : List EdgeEntry} {bound : Nat} {s t : Int} {d : Nat}
    (h : spLen fe bound s t = some d) :
    HasWalk fe d s t ∧ ∀ j < d, ¬ HasWalk fe j s t := by
  obtain ⟨_, _, h3, h4⟩ := spLenAux_some h
  exact ⟨h3, fun j hj => h4 j (Nat.zero_le j) hj⟩

theorem spLen_none_bound {fe : List EdgeEntry} {bound : Nat} {s t : Int}
    (h : spLen fe bound s t = none) : ∀ j ≤ bound, ¬ HasWalk fe j s t := by
  intro j hj
  exact spLenAux_none h j (Nat.zero_le j) (by omega)

theorem spLen_self (fe : List EdgeEntry) (bound : Nat) (s : Int) :
    spLen fe bound s s = some 0 := by
  unfold spLen spLenAux
  rw [if_neg]
  unfold walksFrom
  rw [if_pos rfl]
  simp

/-!
## Walk shortening and the pigeonhole bound
-/

theorem head?_append_cons {α : Type} (p : List α) (x : α) (q : List α) :
    (p ++ x :: q).head? = (p ++ [x]).head? := by
  cases p <;> rfl

theorem getLast?_append_cons {α : Type} :
    ∀ (p : List α) (x : α) (q : List α), (p ++ x :: q).getLast? = (x :: q).getLast? := by
  intro p
  induction p with
  | nil => intro x q; rfl
  | cons a p ih =>
    intro x q
    rw [List.cons_append, getLast?_cons_of_ne_nil (by simp), ih]

theorem exists_two_split_of_not_nodup {α : Type} [DecidableEq α] {l : List α}
    (h : ¬ l.Nodup) : ∃ (x : α) (p q r : List α), l = p ++ x :: (q ++ x :: r) := by
  rcases List.exists_duplicate_iff_not_nodup.mpr h with ⟨x, hx⟩
  have hcount : 2 ≤ l.count x := List.duplicate_iff_two_le_count.mp hx
  rcases List.append_of_mem hx.mem with ⟨p, q, rfl⟩
  have hcount2 : 1 ≤ p.count x + q.count x := by
    rw [List.count_append, List.count_cons_self] at hcount
    omega
  by_cases hxq : x ∈ q
  · rcases List.append_of_mem hxq with ⟨q1, q2, rfl⟩
    exact ⟨x, p, q1, q2, rfl⟩
  · have hxp : x ∈ p := by
      rcases Nat.lt_or_ge 0 (p.count x) with hc | hc
      · exact List.count_pos_iff.mp hc
      · have : q.count x = 0 := List.count_eq_zero_of_not_mem hxq
        omega
    rcases List.append_of_mem hxp with ⟨p1, p2, rfl⟩
    refine ⟨x, p1, p2, q, ?_⟩
    simp

theorem isDirWalk_shorten {fe : List EdgeEntry} {l : List Int} {s t : Int}
    (h : IsDirWalk fe l s t) (hnd : ¬ l.Nodup) :
    ∃ l', IsDirWalk fe l' s t ∧ l'.length < l.length := by
  obtain ⟨hne, hhead, hlast, hchain⟩ := h
  rcases exists_two_split_of_not_nodup hnd with ⟨x, p, q, r, rfl⟩
  refine ⟨p ++ x :: r, ⟨by simp, ?_, ?_, ?_⟩, by simp; omega⟩
  · rw [head?_append_cons p x r, ← head?_append_cons p x (q ++ x :: r)]
    exact hhead
  · rw [getLast?_append_cons p x r, ← getLast?_append_cons q x r,
      ← getLast?_cons_of_ne_nil (by simp : q ++ x :: r ≠ []) x,
      ← getLast?_append_cons p x (q ++ x :: r)]
    exact hlast
  · rw [List.chain'_split] at hchain ⊢
    refine ⟨hchain.1, ?_⟩
    have h2 := hchain.2
    rw [show x :: (q ++ x :: r) = (x :: q) ++ x :: r by simp, List.chain'_split] at h2
    exact h2.2

theorem walksFrom_vertices {fe : List EdgeEntry} :
    ∀ {k : Nat} {s t : Int} {l : List Int}, l ∈ walksFrom fe k s t →
      ∀ a ∈ l, a = s ∨ a ∈ fe.map (fun e => e.1.2) := by
  intro k
  induction k with
  | zero =>
    intro s t l h a ha
    unfold walksFrom at h
    split at h
    · rw [List.mem_singleton] at h
      subst h
      rw [List.mem_singleton] at ha
      exact Or.inl ha
    · exact absurd h (List.not_mem_nil l)
  | succ k ih =>
    intro s t l h a ha
    unfold walksFrom at h
    rcases List.mem_flatMap.mp h with ⟨w, hw, hl⟩
    rcases List.mem_map.mp hl with ⟨l', hl', rfl⟩
    rcases List.mem_cons.mp ha with ha | ha
    · exact Or.inl ha
    · have hwt : w ∈ fe.map (fun e => e.1.2) := by
        unfold succsOf at hw
        rcases List.mem_map.mp hw with ⟨e, he, hew⟩
        exact List.mem_map.mpr ⟨e, (List.mem_filter.mp he).1, hew⟩
      rcases ih hl' a ha with ha' | ha'
      · exact Or.inr (ha' ▸ hwt)
      · exact Or.inr ha'

theorem nodup_subset_length_le {l V : List Int} (hnd : l.Nodup)
    (hsub : ∀ a ∈ l, a ∈ V) : l.length ≤ V.length := by
  have h1 : l.toFinset.card = l.length := List.toFinset_card_of_nodup hnd
  have h2 : l.toFinset ⊆ V.toFinset :=
    fun a ha => List.mem_toFinset.mpr (hsub a (List.mem_toFinset.mp ha))
  have h3 := Finset.card_le_card h2
  have h4 : V.toFinset.card ≤ V.length := V.toFinset_card_le
  omega

theorem hasWalk_below_bound {fe : List EdgeEntry} {s t : Int} {V : List Int}
    (hV : ∀ a, (a = s ∨ a ∈ fe.map (fun e => e.1.2)) → a ∈ V) :
    ∀ k, HasWalk fe k s t → ∃ j, j + 1 ≤ V.length ∧ HasWalk fe j s t := by
  intro k
  induction k using Nat.strong_induction_on with
  | _ k ih =>
    intro h
    rcases List.exists_mem_of_ne_nil _ h with ⟨l, hl⟩
    obtain ⟨hlen, hw⟩ := mem_walksFrom_iff.mp hl
    by_cases hnd : l.Nodup
    · refine ⟨k, ?_, h⟩
      have := nodup_subset_length_le hnd (fun a ha => hV a (walksFrom_vertices hl a ha))
      omega
    · rcases isDirWalk_shorten hw hnd with ⟨l', hw', hlt⟩
      have hne' : l' ≠ [] := hw'.1
      rcases List.exists_cons_of_ne_nil hne' with ⟨y, l'', rfl⟩
      have hj : HasWalk fe (y :: l'').length.pred s t := by
        rw [hasWalk_iff_exists_dirWalk]
        exact ⟨y :: l'', hw', by simp⟩
      exact ih (y :: l'').length.pred (by simp at hlt ⊢; omega) hj

/-!
## Node-metric lookup
-/

theorem find?_cons_eq {α : Type} (p : α → Bool) (a : α) (l : List α) :
    (a :: l).find? p = if p a then some a else l.find? p := by
  by_cases h : p a = true
  · rw [List.find?_cons_of_pos _ h, if_pos h]
  · rw [List.find?_cons_of_neg _ h, if_neg h]

theorem find?_map_key {β : Type} (f : Int → β) :
    ∀ {l : List Int} {v : Int}, l.Nodup → v ∈ l →
      (l.map (fun x => (x, f x))).find? (fun p => p.1 == v) = some (v, f v) := by
  intro l
  induction l with
  | nil => intro v _ hv; exact absurd hv (List.not_mem_nil v)
  | cons x l ih =>
    intro v hnd hv
    rw [List.map_cons]
    rw [find?_cons_eq]
    by_cases hxv : x = v
    · subst hxv
      rw [if_pos (by simp)]
    · rw [if_neg (by simp [hxv])]
      exact ih (List.Nodup.of_cons hnd)
        ((List.mem_cons.mp hv).resolve_left (fun h => hxv h.symm))

theorem getNodeMetric_calc (G : DiGraph) (s e : Int) (K : List Int) (v : Int)
    (hn : filteredNodes G K ≠ []) (he : filteredEdges G s e K ≠ [])
    (hnd : (filteredNodes G K).Nodup) (hv : v ∈ sortNodes (filteredNodes G K)) :
    getNodeMetric (calculate_graph_metrics G s e K) v =
      some (nodeMetricsFor (filteredEdges G s e K) (sortNodes (filteredNodes G K)) v) := by
  unfold getNodeMetric calculate_graph_metrics
  rw [if_neg (by simp [List.isEmpty_iff, hn, he])]
  dsimp only
  rw [find?_map_key (fun x => nodeMetricsFor (filteredEdges G s e K)
    (sortNodes (filteredNodes G K)) x) (sortNodes_nodup hnd) hv]
  rfl

/-!
## Clustering lemmas: the ordered-pair accumulation counts every
undirected neighbour edge twice
-/

theorem undirAdjB_ne {fe : List EdgeEntry} {w x : Int} (h : undirAdjB fe w x = true) :
    w ≠ x := by
  unfold undirAdjB at h
  simp only [Bool.and_eq_true, decide_eq_true_eq] at h
  exact h.1

theorem undirAdjB_symm (fe : List EdgeEntry) (w x : Int) :
    undirAdjB fe w x = undirAdjB fe x w := by
  unfold undirAdjB
  by_cases h : w = x
  · subst h; rfl
  · have h' : ¬ x = w := fun hh => h hh.symm
    simp [h, h', Bool.or_comm]

theorem length_filter_toFinset {l : List Int} (hnd : l.Nodup) (p : Int → Bool) :
    (l.filter p).length = (l.toFinset.filter (fun x => p x = true)).card := by
  have h1 : (l.filter p).toFinset = l.toFinset.filter (fun x => p x = true) := by
    ext x
    simp [List.mem_filter]
  rw [← h1, List.toFinset_card_of_nodup (hnd.filter p)]

theorem card_adj_product (S : Finset Int) (R : Int → Int → Bool) :
    ((S ×ˢ S).filter (fun p => R p.1 p.2 = true)).card =
      S.sum (fun w => (S.filter (fun x => R w x = true)).card) := by
  have H : ∀ p ∈ (S ×ˢ S).filter (fun p => R p.1 p.2 = true), Prod.fst p ∈ S := by
    intro p hp
    exact (Finset.mem_product.mp (Finset.mem_filter.mp hp).1).1
  rw [Finset.card_eq_sum_card_fiberwise H]
  apply Finset.sum_congr rfl
  intro w hw
  apply Finset.card_bij (fun p _ => p.2)
  · intro p hp
    rcases Finset.mem_filter.mp hp with ⟨hp1, hp2⟩
    rcases Finset.mem_filter.mp hp1 with ⟨hp3, hp4⟩
    rcases Finset.mem_product.mp hp3 with ⟨_, hpS⟩
    exact Finset.mem_filter.mpr ⟨hpS, hp2 ▸ hp4⟩
  · intro p hp q hq hpq
    rcases Finset.mem_filter.mp hp with ⟨_, hp2⟩
    rcases Finset.mem_filter.mp hq with ⟨_, hq2⟩
    exact Prod.ext (hp2.trans hq2.symm) hpq
  · intro x hx
    rcases Finset.mem_filter.mp hx with ⟨hxS, hxR⟩
    refine ⟨(w, x), Finset.mem_filter.mpr ⟨Finset.mem_filter.mpr
      ⟨Finset.mem_product.mpr ⟨hw, hxS⟩, hxR⟩, rfl⟩, rfl⟩

theorem card_adj_split (S : Finset Int) (fe : List EdgeEntry) :
    ((S ×ˢ S).filter (fun p => undirAdjB fe p.1 p.2 = true)).card =
      2 * ((S ×ˢ S).filter (fun p => p.1 < p.2 ∧ undirAdjB fe p.1 p.2 = true)).card := by
  have hsplit : (S ×ˢ S).filter (fun p => undirAdjB fe p.1 p.2 = true) =
      ((S ×ˢ S).filter (fun p => p.1 < p.2 ∧ undirAdjB fe p.1 p.2 = true)) ∪
        ((S ×ˢ S).filter (fun p => p.2 < p.1 ∧ undirAdjB fe p.1 p.2 = true)) := by
    rw [← Finset.filter_or]
    apply Finset.filter_congr
    intro p _
    constructor
    · intro h
      rcases lt_or_gt_of_ne (undirAdjB_ne h) with hlt | hgt
      · exact Or.inl ⟨hlt, h⟩
      · exact Or.inr ⟨hgt, h⟩
    · rintro (⟨_, h⟩ | ⟨_, h⟩) <;> exact h
  have hdisj : Disjoint
      ((S ×ˢ S).filter (fun p => p.1 < p.2 ∧ undirAdjB fe p.1 p.2 = true))
      ((S ×ˢ S).filter (fun p => p.2 < p.1 ∧ undirAdjB fe p.1 p.2 = true)) := by
    rw [Finset.disjoint_left]
    intro p hp hq
    have h1 := (Finset.mem_filter.mp hp).2.1
    have h2 := (Finset.mem_filter.mp hq).2.1
    omega
  have hswap :
      ((S ×ˢ S).filter (fun p => p.2 < p.1 ∧ undirAdjB fe p.1 p.2 = true)).card =
        ((S ×ˢ S).filter (fun p => p.1 < p.2 ∧ undirAdjB fe p.1 p.2 = true)).card := by
    apply Finset.card_bij (fun p _ => (p.2, p.1))
    · intro p hp
      rcases Finset.mem_filter.mp hp with ⟨hp1, hp2, hp3⟩
      rcases Finset.mem_product.mp hp1 with ⟨ha, hb⟩
      refine Finset.mem_filter.mpr ⟨Finset.mem_product.mpr ⟨hb, ha⟩, hp2, ?_⟩
      rw [undirAdjB_symm]
      exact hp3
    · intro p hp q hq hpq
      have h1 := congrArg Prod.fst hpq
      have h2 := congrArg Prod.snd hpq
      exact Prod.ext h2 h1
    · intro q hq
      rcases Finset.mem_filter.mp hq with ⟨hq1, hq2, hq3⟩
      rcases Finset.mem_product.mp hq1 with ⟨ha, hb⟩
      refine ⟨(q.2, q.1), Finset.mem_filter.mpr ⟨Finset.mem_product.mpr ⟨hb, ha⟩, hq2, ?_⟩, rfl⟩
      rw [undirAdjB_symm]
      exact hq3
  rw [hsplit, Finset.card_union_of_disjoint hdisj, hswap]
  omega

theorem triDouble_eq_twice (fe : List EdgeEntry) (nodes : List Int) (v : Int)
    (hnd : (nbrsList fe nodes v).Nodup) :
    triDouble fe nodes v = 2 * (undirEdgesAmongNbrs fe nodes v).card := by
  unfold triDouble undirEdgesAmongNbrs
  have h1 : ((nbrsList fe nodes v).map (fun w =>
      ((nbrsList fe nodes v).filter (fun x => undirAdjB fe w x)).length)).sum =
      (nbrsList fe nodes v).toFinset.sum (fun w =>
        ((nbrsList fe nodes v).filter (fun x => undirAdjB fe w x)).length) :=
    (List.sum_toFinset _ hnd).symm
  rw [h1]
  have h2 : ∀ w ∈ (nbrsList fe nodes v).toFinset,
      ((nbrsList fe nodes v).filter (fun x => undirAdjB fe w x)).length =
        ((nbrsList fe nodes v).toFinset.filter (fun x => undirAdjB fe w x = true)).card :=
    fun w _ => length_filter_toFinset hnd _
  rw [Finset.sum_congr rfl h2, ← card_adj_product, card_adj_split]

theorem clusteringCoeff_spec (fe : List EdgeEntry) (nodes : List Int) (v : Int)
    (hnd : (nbrsList fe nodes v).Nodup) :
    clusteringCoeff fe nodes v =
      if (nbrsList fe nodes v).length < 2 then 0
      else ((undirEdgesAmongNbrs fe nodes v).card : ℚ) /
        (((nbrsList fe nodes v).length : ℚ) *
          (((nbrsList fe nodes v).length : ℚ) - 1) / 2) := by
  unfold clusteringCoeff
  rw [triDouble_eq_twice fe nodes v hnd]
  by_cases hkk : (nbrsList fe nodes v).length < 2
  · rw [if_pos hkk]
    have hc0 : (undirEdgesAmongNbrs fe nodes v).card = 0 := by
      rw [Finset.card_eq_zero]
      rw [Finset.eq_empty_iff_forall_not_mem]
      intro p hp
      simp only [undirEdgesAmongNbrs, Finset.mem_filter, Finset.mem_product,
        List.mem_toFinset] at hp
      obtain ⟨⟨h1, h2⟩, hlt, _⟩ := hp
      rcases hN : nbrsList fe nodes v with _ | ⟨w, rest⟩
      · rw [hN] at h1
        exact absurd h1 (List.not_mem_nil _)
      · rw [hN] at hkk h1 h2
        simp only [List.length_cons] at hkk
        have hrest : rest = [] := List.length_eq_zero.mp (by omega)
        subst hrest
        rw [List.mem_singleton] at h1 h2
        omega
    rw [hc0]
    norm_num
  · rw [if_neg hkk]
    by_cases hc0 : (undirEdgesAmongNbrs fe nodes v).card = 0
    · rw [hc0]
      norm_num
    · rw [if_neg (by omega : ¬ 2 * (undirEdgesAmongNbrs fe nodes v).card = 0)]
      have h1 : ((nbrsList fe nodes v).length : ℚ) ≠ 0 := by
        exact_mod_cast (by omega : (nbrsList fe nodes v).length ≠ 0)
      have h2 : ((nbrsList fe nodes v).length : ℚ) - 1 ≠ 0 := by
        have : (2 : ℚ) ≤ ((nbrsList fe nodes v).length : ℚ) := by
          exact_mod_cast (by omega : 2 ≤ (nbrsList fe nodes v).length)
        intro hcon
        rw [sub_eq_zero] at hcon
        rw [hcon] at this
        norm_num at this
      push_cast
      field_simp
      ring

/-!
## Claim theorems
-/

/-- C3: whenever the filtered graph has zero nodes or zero edges — in
particular for every window with `start > end`, which filters out all
edges — `calculate_graph_metrics` returns the canonical empty result (and,
being a total function, never raises). -/
theorem metrics_empty_graph_canonical (G : DiGraph) (s e : Int) (K : List Int) :
    (filteredNodes G K = [] ∨ filteredEdges G s e K = [] →
        calculate_graph_metrics G s e K = emptyMetrics) ∧
    (e < s → calculate_graph_metrics G s e K = emptyMetrics) := by
  have base : ∀ _ : filteredNodes G K = [] ∨ filteredEdges G s e K = [],
      calculate_graph_metrics G s e K = emptyMetrics := by
    intro h
    unfold calculate_graph_metrics
    rcases h with h | h <;> simp [h]
  exact ⟨base, fun h => base (Or.inr (filteredEdges_eq_nil_of_lt h))⟩

/-- C3 witness: a window with `start > end` on the concrete path graph
produces the canonical empty result. -/
theorem metrics_empty_graph_canonical_witness :
    calculate_graph_metrics Gpath 300 200 [1, 2, 3] = emptyMetrics :=
  (metrics_empty_graph_canonical Gpath 300 200 [1, 2, 3]).2 (by decide)

/-- C5: the filtered graph on which the metrics are computed has exactly
the nodes of the input graph that lie in `user_fids` (isolated nodes
included) and exactly the edges with `start <= timestamp <= end`
(inclusive both ends) whose endpoints both lie in `user_fids`; the
reported `num_nodes` and `num_edges` count exactly these. -/
theorem metrics_filter_exact (G : DiGraph) (s e : Int) (K : List Int) :
    (∀ n, n ∈ filteredNodes G K ↔ n ∈ G.nodeIds ∧ n ∈ K) ∧
    (∀ u v ts, ((u, v), ts) ∈ filteredEdges G s e K ↔
        ((u, v), ts) ∈ G.edges ∧ (s ≤ ts ∧ ts ≤ e) ∧ u ∈ K ∧ v ∈ K) ∧
    (filteredNodes G K ≠ [] → filteredEdges G s e K ≠ [] →
        (calculate_graph_metrics G s e K).num_nodes = (filteredNodes G K).length ∧
        (calculate_graph_metrics G s e K).num_edges = (filteredEdges G s e K).length) := by
  refine ⟨fun n => mem_filteredNodes, fun u v ts => mem_filteredEdges, fun h1 h2 => ?_⟩
  unfold calculate_graph_metrics
  rw [if_neg]
  · exact ⟨rfl, rfl⟩
  · simp [List.isEmpty_iff, h1, h2]

/-- C5 witness: on the concrete path graph the filtered counts are
reported. -/
theorem metrics_filter_exact_witness :
    (calculate_graph_metrics Gpath 0 200 [1, 2, 3]).num_nodes =
        (filteredNodes Gpath [1, 2, 3]).length ∧
      (calculate_graph_metrics Gpath 0 200 [1, 2, 3]).num_edges =
        (filteredEdges Gpath 0 200 [1, 2, 3]).length :=
  (metrics_filter_exact Gpath 0 200 [1, 2, 3]).2.2 (by decide) (by decide)

/-- C1 counterexample: `create_graph` checks only the *target* of a follow
against the identity set, so a follow attributed to the unknown source
id 99 towards the known id 1 produces a retained edge `99 -> 1` in the
built graph, refuting "every edge referencing an id outside the identity
set, whether as its source or as its target, is silently dropped". -/
theorem build_keeps_foreign_source_edge :
    ((99, 1), 5) ∈ (create_graph fiForeign udOne).edges ∧
      99 ∉ udOne.map (·.fid) := by decide

/-- C1 amended: at build time only the *target* of each follow is checked
against the identity set, so every retained edge's target is a known id,
while an edge whose source is unknown may be retained; nevertheless every
edge appearing in the metrics filter or in the serialized links — which
both require the two endpoints to be known ids — has both endpoints in the
identity set, so a foreign-endpoint edge never appears in any filtered or
serialized output. -/
theorem build_edges_target_closed (fi : List FollowInfo) (ud : List Ident) (s e : Int) :
    (∀ ed ∈ (create_graph fi ud).edges, ed.1.2 ∈ ud.map (·.fid)) ∧
    (∀ ed ∈ filteredEdges (create_graph fi ud) s e (ud.map (·.fid)),
        ed.1.1 ∈ ud.map (·.fid) ∧ ed.1.2 ∈ ud.map (·.fid)) ∧
    (∀ l ∈ (graph_to_json (create_graph fi ud) (ud.map (·.fid))).2,
        l.source ∈ ud.map (·.fid) ∧ l.target ∈ ud.map (·.fid)) := by
  refine ⟨?_, ?_, ?_⟩
  · intro ed h
    rcases create_graph_edges_sub fi ud ed h with ⟨user, _, f, _, hc, hed⟩
    rw [hed]
    simpa using hc
  · intro ed h
    rcases List.mem_filter.mp h with ⟨_, hc⟩
    simp only [Bool.and_eq_true, decide_eq_true_eq, contains_true_iff] at hc
    exact ⟨hc.1.2, hc.2⟩
  · intro l h
    simp only [graph_to_json] at h
    rcases List.mem_map.mp h with ⟨ed, hed, hl⟩
    rcases List.mem_filter.mp hed with ⟨_, hc⟩
    simp only [Bool.and_eq_true, contains_true_iff] at hc
    rw [← hl]
    exact hc

/-- C1 witness: the amended statement at the concrete foreign-source
input — the retained edge `99 -> 1` has its target among the identity
fids, and the serialized links of the pipeline (whose known-id set is the
identity set) all have both endpoints among the identity fids. -/
theorem build_edges_target_closed_witness :
    ((99 : Int), (1 : Int)) = (((99, 1), 5) : EdgeEntry).1 ∧
      (((99, 1), 5) : EdgeEntry).1.2 ∈ udOne.map (·.fid) :=
  ⟨rfl, (build_edges_target_closed fiForeign udOne 0 10).1 ((99, 1), 5) (by decide)⟩

/-- C7: for every assembled graph with the identity fids as known-id set,
the `all_timestamps` list of `get_graph_data` is built without error
(every known node has a stored `timestamp`), a value appears in it exactly
when it is the timestamp of an edge with both endpoints known or the
stored registration timestamp of a known node, and the derived window is
`(min, max)` of that list — `(0, 0)` when the list is empty. -/
theorem default_window_min_max (fi : List FollowInfo) (ud : List Ident) :
    (∃ ts, all_timestamps (create_graph fi ud) (ud.map (·.fid)) = some ts) ∧
    (∀ ts, all_timestamps (create_graph fi ud) (ud.map (·.fid)) = some ts →
      (∀ t, t ∈ ts ↔
        ((∃ u v, ((u, v), t) ∈ (create_graph fi ud).edges ∧
            u ∈ ud.map (·.fid) ∧ v ∈ ud.map (·.fid)) ∨
          ∃ n a, (n, some a) ∈ (create_graph fi ud).nodes ∧ n ∈ ud.map (·.fid) ∧
            a.timestamp = t)) ∧
      (ts = [] → derive_window (create_graph fi ud) (ud.map (·.fid)) = some (0, 0)) ∧
      (∀ a b, derive_window (create_graph fi ud) (ud.map (·.fid)) = some (a, b) →
        ts ≠ [] → a ∈ ts ∧ b ∈ ts ∧ ∀ t ∈ ts, a ≤ t ∧ t ≤ b)) := by
  have hKA := create_graph_KnownAttrs fi ud
  have hpre : ∀ p ∈ (create_graph fi ud).nodes.filter
      (fun p => (ud.map (·.fid)).contains p.1), p.2.isSome := by
    intro p hp
    rcases List.mem_filter.mp hp with ⟨hmem, hc⟩
    exact hKA.2 p hmem (contains_true_iff.mp hc)
  have hts_eq : all_timestamps (create_graph fi ud) (ud.map (·.fid)) = some
      ((((create_graph fi ud).edges.filter
          (fun e => (ud.map (·.fid)).contains e.1.1 &&
            (ud.map (·.fid)).contains e.1.2)).map (·.2)) ++
        ((create_graph fi ud).nodes.filter
          (fun p => (ud.map (·.fid)).contains p.1)).filterMap
            (fun p => p.2.map (·.timestamp))) := by
    unfold all_timestamps
    rw [mapM_timestamp_of_isSome _ hpre]
    rfl
  refine ⟨⟨_, hts_eq⟩, ?_⟩
  intro ts hts
  have hlist : ((((create_graph fi ud).edges.filter
      (fun e => (ud.map (·.fid)).contains e.1.1 &&
        (ud.map (·.fid)).contains e.1.2)).map (·.2)) ++
      ((create_graph fi ud).nodes.filter
        (fun p => (ud.map (·.fid)).contains p.1)).filterMap
          (fun p => p.2.map (·.timestamp))) = ts := by
    rw [hts_eq] at hts
    exact Option.some.inj hts
  refine ⟨?_, ?_, ?_⟩
  · intro t
    rw [← hlist]
    simp only [List.mem_append, List.mem_map, List.mem_filter, List.mem_filterMap,
      Bool.and_eq_true, contains_true_iff]
    constructor
    · rintro (⟨e, ⟨he, hc1, hc2⟩, ht⟩ | ⟨p, ⟨hp, hc⟩, hpt⟩)
      · refine Or.inl ⟨e.1.1, e.1.2, ?_, hc1, hc2⟩
        rw [← ht]
        exact he
      · rcases Option.map_eq_some'.mp hpt with ⟨a, ha, hat⟩
        refine Or.inr ⟨p.1, a, ?_, hc, hat⟩
        rw [← ha]
        exact hp
    · rintro (⟨u, v, he, hc1, hc2⟩ | ⟨n, a, hp, hc, hat⟩)
      · exact Or.inl ⟨((u, v), t), ⟨he, hc1, hc2⟩, rfl⟩
      · exact Or.inr ⟨(n, some a), ⟨hp, hc⟩, by simp [hat]⟩
  · intro hempty
    unfold derive_window
    rw [hts, hempty]
    rfl
  · intro a b hd hne
    unfold derive_window at hd
    rw [hts] at hd
    simp only [Option.map_some'] at hd
    have hd' := Option.some.inj hd
    rcases List.exists_cons_of_ne_nil hne with ⟨x, ts', hx⟩
    have hm : ∃ m, ts.min? = some m := by rw [hx]; exact ⟨_, rfl⟩
    have hM : ∃ M, ts.max? = some M := by rw [hx]; exact ⟨_, rfl⟩
    rcases hm with ⟨m, hm⟩
    rcases hM with ⟨M, hM⟩
    have hminP := (List.min?_eq_some_iff (fun a => le_refl a) (fun a b => min_choice a b)
      (fun a b c => le_min_iff)).mp hm
    have hmaxP := (List.max?_eq_some_iff (fun a => le_refl a) (fun a b => max_choice a b)
      (fun a b c => max_le_iff)).mp hM
    have ham : a = m := by
      have := congrArg Prod.fst hd'
      simpa [hm] using this.symm
    have hbM : b = M := by
      have := congrArg Prod.snd hd'
      simpa [hM] using this.symm
    subst ham
    subst hbM
    exact ⟨hminP.1, hmaxP.1, fun t ht => ⟨hminP.2 t ht, hmaxP.2 t ht⟩⟩

/-- C7 witness: on the concrete path graph `all_timestamps` is
`[10, 20, 100, 100, 100]`, and the derived window `(10, 100)` is its
min/max. -/
theorem default_window_min_max_witness :
    (10 : Int) ∈ ([10, 20, 100, 100, 100] : List Int) ∧
      (100 : Int) ∈ ([10, 20, 100, 100, 100] : List Int) ∧
      ∀ t ∈ ([10, 20, 100, 100, 100] : List Int), (10 : Int) ≤ t ∧ t ≤ 100 :=
  ((default_window_min_max fiPath udSample).2 [10, 20, 100, 100, 100]
    (by decide)).2.2 10 100 (by decide) (by decide)

/-- C2 counterexample: on the directed path `1 -> 2 -> 3` with every edge
in the window, the engine reports betweenness `1/2` for the middle node,
because `nx.betweenness_centrality` defaults to `normalized=True` and
divides by `(n-1)(n-2) = 2`; the claim's unnormalized pairwise sum is `1`,
so the claim fails at this input. -/
theorem betweenness_unnormalized_counterexample :
    (getNodeMetric (calculate_graph_metrics Gpath 0 200 [1, 2, 3]) 2).map
        (·.betweenness_centrality) = some (1/2) ∧
    rawBetweenness (filteredEdges Gpath 0 200 [1, 2, 3])
        (sortNodes (filteredNodes Gpath [1, 2, 3])).length
        (sortNodes (filteredNodes Gpath [1, 2, 3])) 2 = 1 ∧
    ((1 : ℚ)/2) ≠ 1 := by
  have hfe : filteredEdges Gpath 0 200 [1, 2, 3] = [((1, 2), 10), ((2, 3), 20)] := by decide
  have hnl : sortNodes (filteredNodes Gpath [1, 2, 3]) = [1, 2, 3] := by decide
  have h13c : sigmaCount [((1, 2), 10), ((2, 3), 20)] 3 1 3 = 1 := by decide
  have h13t : sigmaThrough [((1, 2), 10), ((2, 3), 20)] 3 1 3 2 = 1 := by decide
  have h31c : sigmaCount [((1, 2), 10), ((2, 3), 20)] 3 3 1 = 0 := by decide
  have hpd13 : pairDependency [((1, 2), 10), ((2, 3), 20)] 3 1 3 2 = 1 := by
    unfold pairDependency
    rw [if_neg (by rw [h13c]; exact one_ne_zero), h13t, h13c]
    norm_num
  have hpd31 : pairDependency [((1, 2), 10), ((2, 3), 20)] 3 3 1 2 = 0 := by
    unfold pairDependency
    rw [if_pos h31c]
  have hraw : rawBetweenness [((1, 2), 10), ((2, 3), 20)] 3 [1, 2, 3] 2 = 1 := by
    unfold rawBetweenness
    simp only [List.map_cons, List.map_nil, List.sum_cons, List.sum_nil]
    norm_num [hpd13, hpd31]
  refine ⟨?_, ?_, by norm_num⟩
  · rw [getNodeMetric_calc Gpath 0 200 [1, 2, 3] 2 (by decide) (by decide) (by decide)
      (by rw [hnl]; decide)]
    rw [hfe, hnl]
    simp only [Option.map_some', nodeMetricsFor, betweennessOf]
    norm_num [hraw]
  · rw [hfe, hnl]
    exact hraw

/-- C2 amended: the betweenness reported by the engine is the NORMALIZED
standard directed betweenness: the sum over ordered pairs `(s,t)`,
`s ≠ t ≠ v`, of `sigma(s,t|v)/sigma(s,t)`, divided by `(n-1)(n-2)` when
the filtered graph has `n > 2` nodes (and left unscaled when `n ≤ 2`). -/
theorem betweenness_normalized (G : DiGraph) (s e : Int) (K : List Int)
    (hn : filteredNodes G K ≠ []) (he : filteredEdges G s e K ≠ [])
    (hnd : (filteredNodes G K).Nodup) (v : Int)
    (hv : v ∈ sortNodes (filteredNodes G K)) :
    (getNodeMetric (calculate_graph_metrics G s e K) v).map (·.betweenness_centrality) =
      some (if (sortNodes (filteredNodes G K)).length ≤ 2 then
          rawBetweenness (filteredEdges G s e K) (sortNodes (filteredNodes G K)).length
            (sortNodes (filteredNodes G K)) v
        else
          rawBetweenness (filteredEdges G s e K) (sortNodes (filteredNodes G K)).length
              (sortNodes (filteredNodes G K)) v /
            ((((sortNodes (filteredNodes G K)).length : ℚ) - 1) *
              (((sortNodes (filteredNodes G K)).length : ℚ) - 2))) := by
  rw [getNodeMetric_calc G s e K v hn he hnd hv]
  rfl

/-- C2 witness: the amended statement instantiated on the concrete path
graph at the middle node. -/
theorem betweenness_normalized_witness :
    (getNodeMetric (calculate_graph_metrics Gpath 0 200 [1, 2, 3]) 2).map
        (·.betweenness_centrality) =
      some (if (sortNodes (filteredNodes Gpath [1, 2, 3])).length ≤ 2 then
          rawBetweenness (filteredEdges Gpath 0 200 [1, 2, 3])
            (sortNodes (filteredNodes Gpath [1, 2, 3])).length
            (sortNodes (filteredNodes Gpath [1, 2, 3])) 2
        else
          rawBetweenness (filteredEdges Gpath 0 200 [1, 2, 3])
              (sortNodes (filteredNodes Gpath [1, 2, 3])).length
              (sortNodes (filteredNodes Gpath [1, 2, 3])) 2 /
            ((((sortNodes (filteredNodes Gpath [1, 2, 3])).length : ℚ) - 1) *
              (((sortNodes (filteredNodes Gpath [1, 2, 3])).length : ℚ) - 2))) :=
  betweenness_normalized Gpath 0 200 [1, 2, 3] (by decide) (by decide) (by decide) 2
    (by decide)

/-- C6 counterexample: on the directed cycle `1 -> 2 -> 3 -> 1` (all
timestamps in-window) the undirected projection is a triangle, so every
node's clustering coefficient is 1 and `avgClustering` is 1 — not 0 as
the claim's "in particular" asserts. -/
theorem clustering_three_cycle_counterexample :
    (getNodeMetric (calculate_graph_metrics Gcycle 0 200 [1, 2, 3]) 1).map
        (·.clustering_coefficient) = some 1 ∧
    (calculate_graph_metrics Gcycle 0 200 [1, 2, 3]).avg_clustering = 1 ∧
    (1 : ℚ) ≠ 0 := by
  have hfe : filteredEdges Gcycle 0 200 [1, 2, 3] =
      [((1, 2), 10), ((2, 3), 10), ((3, 1), 10)] := by decide
  have hnl : sortNodes (filteredNodes Gcycle [1, 2, 3]) = [1, 2, 3] := by decide
  have ht : ∀ v ∈ ([1, 2, 3] : List Int),
      triDouble [((1, 2), 10), ((2, 3), 10), ((3, 1), 10)] [1, 2, 3] v = 2 := by decide
  have hd : ∀ v ∈ ([1, 2, 3] : List Int),
      (nbrsList [((1, 2), 10), ((2, 3), 10), ((3, 1), 10)] [1, 2, 3] v).length = 2 := by
    decide
  have hcc : ∀ v ∈ ([1, 2, 3] : List Int),
      clusteringCoeff [((1, 2), 10), ((2, 3), 10), ((3, 1), 10)] [1, 2, 3] v = 1 := by
    intro v hv
    unfold clusteringCoeff
    rw [ht v hv, hd v hv]
    norm_num
  refine ⟨?_, ?_, by norm_num⟩
  · rw [getNodeMetric_calc Gcycle 0 200 [1, 2, 3] 1 (by decide) (by decide) (by decide)
      (by rw [hnl]; decide)]
    simp only [Option.map_some', nodeMetricsFor]
    rw [hfe, hnl, hcc 1 (by decide)]
  · unfold calculate_graph_metrics
    rw [if_neg (by decide)]
    dsimp only
    rw [hfe, hnl]
    rw [List.map_cons, List.map_cons, List.map_cons, List.map_nil]
    rw [hcc 1 (by decide), hcc 2 (by decide), hcc 3 (by decide)]
    norm_num

/-- C6 amended: each node's clustering coefficient is computed on the
undirected projection by the standard formula — 0 when the undirected
degree `k` is below 2, otherwise the number of undirected edges among the
node's neighbours divided by `k(k-1)/2` — and `avgClustering` is the
arithmetic mean of the per-node coefficients; on a directed 3-cycle the
projection is a triangle, so each coefficient is 1 and the mean is 1
(not 0). -/
theorem clustering_coefficient_formula (G : DiGraph) (s e : Int) (K : List Int)
    (hn : filteredNodes G K ≠ []) (he : filteredEdges G s e K ≠ [])
    (hnd : (filteredNodes G K).Nodup) (v : Int)
    (hv : v ∈ sortNodes (filteredNodes G K)) :
    (getNodeMetric (calculate_graph_metrics G s e K) v).map (·.clustering_coefficient) =
      some (if (nbrsList (filteredEdges G s e K)
            (sortNodes (filteredNodes G K)) v).length < 2 then 0
        else ((undirEdgesAmongNbrs (filteredEdges G s e K)
            (sortNodes (filteredNodes G K)) v).card : ℚ) /
          (((nbrsList (filteredEdges G s e K)
              (sortNodes (filteredNodes G K)) v).length : ℚ) *
            (((nbrsList (filteredEdges G s e K)
              (sortNodes (filteredNodes G K)) v).length : ℚ) - 1) / 2)) ∧
    (calculate_graph_metrics G s e K).avg_clustering =
      ((sortNodes (filteredNodes G K)).map (fun w =>
        clusteringCoeff (filteredEdges G s e K) (sortNodes (filteredNodes G K)) w)).sum /
        ((sortNodes (filteredNodes G K)).length : ℚ) := by
  constructor
  · rw [getNodeMetric_calc G s e K v hn he hnd hv]
    simp only [Option.map_some', nodeMetricsFor]
    rw [clusteringCoeff_spec _ _ _ (List.Nodup.filter _ (sortNodes_nodup hnd))]
  · unfold calculate_graph_metrics
    rw [if_neg (by simp [List.isEmpty_iff, hn, he])]

/-- C6 witness: the amended statement instantiated on the concrete
three-cycle graph at node 1. -/
theorem clustering_coefficient_formula_witness :
    (getNodeMetric (calculate_graph_metrics Gcycle 0 200 [1, 2, 3]) 1).map
        (·.clustering_coefficient) =
      some (if (nbrsList (filteredEdges Gcycle 0 200 [1, 2, 3])
            (sortNodes (filteredNodes Gcycle [1, 2, 3])) 1).length < 2 then 0
        else ((undirEdgesAmongNbrs (filteredEdges Gcycle 0 200 [1, 2, 3])
            (sortNodes (filteredNodes Gcycle [1, 2, 3])) 1).card : ℚ) /
          (((nbrsList (filteredEdges Gcycle 0 200 [1, 2, 3])
              (sortNodes (filteredNodes Gcycle [1, 2, 3])) 1).length : ℚ) *
            (((nbrsList (filteredEdges Gcycle 0 200 [1, 2, 3])
              (sortNodes (filteredNodes Gcycle [1, 2, 3])) 1).length : ℚ) - 1) / 2)) :=
  (clustering_coefficient_formula Gcycle 0 200 [1, 2, 3] (by decide) (by decide)
    (by decide) 1 (by decide)).1

/-- C4: for every non-empty filtered graph, the shortest-path matrix is
indexed in both dimensions by the ascending canonical node ordering
(sorted, a permutation of the filtered nodes); entry `[i][j]` is the
shortest-path search value for the ordered node pair, which equals the
directed hop-count distance (a shortest directed walk of that many hops
exists, and no directed walk is shorter); the diagonal is `some 0`; and
the sentinel `none` — never a finite number — appears exactly at the
pairs with no directed walk at all. -/
theorem shortest_path_matrix_correct (G : DiGraph) (s e : Int) (K : List Int)
    (hWF : G.WF) (hn : filteredNodes G K ≠ []) (he : filteredEdges G s e K ≠ []) :
    (sortNodes (filteredNodes G K)).Sorted (· ≤ ·) ∧
    (sortNodes (filteredNodes G K)).Perm (filteredNodes G K) ∧
    (calculate_graph_metrics G s e K).shortest_path_matrix =
      (sortNodes (filteredNodes G K)).map (fun u =>
        (sortNodes (filteredNodes G K)).map (fun v =>
          spLen (filteredEdges G s e K) (sortNodes (filteredNodes G K)).length u v)) ∧
    (∀ u : Int, spLen (filteredEdges G s e K)
        (sortNodes (filteredNodes G K)).length u u = some 0) ∧
    (∀ u v : Int, ∀ d : Nat,
      spLen (filteredEdges G s e K) (sortNodes (filteredNodes G K)).length u v = some d →
        (∃ l, IsDirWalk (filteredEdges G s e K) l u v ∧ l.length = d + 1) ∧
          ∀ l, IsDirWalk (filteredEdges G s e K) l u v → d + 1 ≤ l.length) ∧
    (∀ u v : Int, u ∈ sortNodes (filteredNodes G K) →
      (spLen (filteredEdges G s e K) (sortNodes (filteredNodes G K)).length u v = none ↔
        ¬ ∃ l, IsDirWalk (filteredEdges G s e K) l u v)) := by
  refine ⟨sortNodes_sorted _, sortNodes_perm _, ?_, fun u => spLen_self _ _ u, ?_, ?_⟩
  · unfold calculate_graph_metrics
    rw [if_neg (by simp [List.isEmpty_iff, hn, he])]
  · intro u v d hd
    obtain ⟨hwd, hmin⟩ := spLen_some_min hd
    constructor
    · rcases hasWalk_iff_exists_dirWalk.mp hwd with ⟨l, hl, hlen⟩
      exact ⟨l, hl, hlen⟩
    · intro l hl
      rcases List.exists_cons_of_ne_nil hl.1 with ⟨y, l', rfl⟩
      have hwj : HasWalk (filteredEdges G s e K) (y :: l').length.pred u v :=
        hasWalk_iff_exists_dirWalk.mpr ⟨y :: l', hl, by simp⟩
      by_contra hcon
      push_neg at hcon
      refine hmin (y :: l').length.pred ?_ hwj
      simp only [List.length_cons, Nat.pred_eq_sub_one] at hcon ⊢
      omega
  · intro u v hu
    constructor
    · intro hnone
      rintro ⟨l, hl⟩
      rcases List.exists_cons_of_ne_nil hl.1 with ⟨y, l', rfl⟩
      have hwj : HasWalk (filteredEdges G s e K) (y :: l').length.pred u v :=
        hasWalk_iff_exists_dirWalk.mpr ⟨y :: l', hl, by simp⟩
      have hV : ∀ a, (a = u ∨ a ∈ (filteredEdges G s e K).map (fun e => e.1.2)) →
          a ∈ sortNodes (filteredNodes G K) := by
        rintro a (rfl | ha)
        · exact hu
        · rcases List.mem_map.mp ha with ⟨ed, hed, rfl⟩
          obtain ⟨hE, _, _, hv'⟩ := mem_filteredEdges.mp
            (show ((ed.1.1, ed.1.2), ed.2) ∈ filteredEdges G s e K from hed)
          have h2 : ed.1.2 ∈ G.nodeIds := (hWF.2.2 _ hE).2
          exact sortNodes_mem.mpr (mem_filteredNodes.mpr ⟨h2, hv'⟩)
      rcases hasWalk_below_bound hV _ hwj with ⟨j, hjle, hwalk⟩
      exact spLen_none_bound hnone j (by omega) hwalk
    · intro hnever
      cases hsp : spLen (filteredEdges G s e K) (sortNodes (filteredNodes G K)).length u v with
      | none => rfl
      | some d =>
        rcases hasWalk_iff_exists_dirWalk.mp (spLen_some_min hsp).1 with ⟨l, hl, _⟩
        exact absurd ⟨l, hl⟩ hnever

/-- C4 witness: on the concrete path graph, node 3 cannot reach node 1,
and the matrix model records the `none` sentinel exactly there. -/
theorem shortest_path_matrix_correct_witness :
    spLen (filteredEdges Gpath 0 200 [1, 2, 3])
        (sortNodes (filteredNodes Gpath [1, 2, 3])).length 3 1 = none ↔
      ¬ ∃ l, IsDirWalk (filteredEdges Gpath 0 200 [1, 2, 3]) l 3 1 :=
  (shortest_path_matrix_correct Gpath 0 200 [1, 2, 3] (by decide) (by decide)
    (by decide)).2.2.2.2.2 3 1 (by decide)

/-- C9: the built graph stores at most one edge per ordered pair (its edge
keys are distinct), and the timestamp stored for a pair is that of the
LAST follow for that pair that passed the build-time filter — later writes
overwrite earlier ones, exactly like `networkx`'s `add_edge`. -/
theorem duplicate_edge_last_write_wins (fi : List FollowInfo) (ud : List Ident)
    (k : Int × Int) :
    (create_graph fi ud).edgeKeys.Nodup ∧
      edgeLookup (create_graph fi ud) k = lastWrite (passingFollows fi ud) k := by
  have hcg : create_graph fi ud =
      (passingFollows fi ud).foldl (fun G e => G.addEdge e.1.1 e.1.2 e.2)
        (ud.foldl (fun G u => G.addNode u.fid ⟨u.username, u.timestamp, u.avatar_url⟩)
          (⟨[], []⟩ : DiGraph)) := by
    unfold create_graph
    exact create_graph_eq_addEdge_fold fi ud _
  constructor
  · rw [hcg]
    apply foldl_addEdge_keys_nodup
    unfold DiGraph.edgeKeys
    rw [nodeBuild_edges]
    exact List.nodup_nil
  · rw [hcg, foldl_addEdge_lookup]
    have hnil : edgeLookup (ud.foldl
        (fun G u => G.addNode u.fid ⟨u.username, u.timestamp, u.avatar_url⟩)
          (⟨[], []⟩ : DiGraph)) k = none := by
      unfold edgeLookup
      rw [nodeBuild_edges]
      rfl
    rw [hnil]
    cases h : lastWrite (passingFollows fi ud) k <;> simp [h]

/-- C8: the serializer emits node records exactly for the graph nodes in
the known-id set (one per node when node keys are distinct, in the shape
`mkNodeRecord`) and link records exactly for the edges with both endpoints
in the known-id set. -/
theorem serialize_exact (G : DiGraph) (K : List Int) :
    (∀ n, (∃ r ∈ (graph_to_json G K).1, r.id = n) ↔ n ∈ G.nodeIds ∧ n ∈ K) ∧
    (∀ p ∈ G.nodes, p.1 ∈ K → mkNodeRecord p.1 p.2 ∈ (graph_to_json G K).1) ∧
    (∀ u v ts, (⟨u, v, ts⟩ : LinkRecord) ∈ (graph_to_json G K).2 ↔
        ((u, v), ts) ∈ G.edges ∧ u ∈ K ∧ v ∈ K) ∧
    (G.nodeIds.Nodup → ((graph_to_json G K).1.map (·.id)).Nodup) := by
  refine ⟨?_, ?_, ?_, ?_⟩
  · intro n
    constructor
    · rintro ⟨r, hr, hid⟩
      rcases List.mem_map.mp hr with ⟨p, hp, hpr⟩
      rcases List.mem_filter.mp hp with ⟨hmem, hK⟩
      have hpn : p.1 = n := by rw [← hid, ← hpr]; rfl
      refine ⟨?_, ?_⟩
      · exact hpn ▸ List.mem_map_of_mem Prod.fst hmem
      · rw [← hpn]; simpa using hK
    · rintro ⟨hmem, hK⟩
      rcases List.mem_map.mp hmem with ⟨p, hp, hpn⟩
      refine ⟨mkNodeRecord p.1 p.2, ?_, hpn⟩
      exact List.mem_map_of_mem _ (List.mem_filter.mpr ⟨hp, by simpa using hpn ▸ hK⟩)
  · intro p hp hK
    exact List.mem_map_of_mem _ (List.mem_filter.mpr ⟨hp, by simpa using hK⟩)
  · intro u v ts
    constructor
    · intro h
      rcases List.mem_map.mp h with ⟨ed, hed, hl⟩
      rcases List.mem_filter.mp hed with ⟨hmem, hc⟩
      simp only [Bool.and_eq_true, contains_true_iff] at hc
      cases hl
      exact ⟨hmem, hc⟩
    · rintro ⟨hmem, hu, hv⟩
      exact List.mem_map_of_mem _
        (List.mem_filter.mpr ⟨hmem, by simp [contains_true_iff, hu, hv]⟩)
  · intro hnd
    have : ((graph_to_json G K).1.map (·.id)) =
        (G.nodes.filter (fun p => K.contains p.1)).map Prod.fst := by
      simp only [graph_to_json, List.map_map]
      rfl
    rw [this]
    exact hnd.sublist (List.Sublist.map Prod.fst (List.filter_sublist G.nodes))

/-- C8 witness: the iff instantiated on the concrete path graph. -/
theorem serialize_exact_witness :
    ((1 : Int), (2 : Int), (10 : Int)) = ((1 : Int), (2 : Int), (10 : Int)) ∧
      (((1, 2), 10) : EdgeEntry) ∈ Gpath.edges ∧ (1 : Int) ∈ [1, 2, 3] ∧ (2 : Int) ∈ [1, 2, 3] :=
  ⟨rfl, (serialize_exact Gpath [1, 2, 3]).2.2.1 1 2 10 |>.mp (by decide)⟩

/-- C10: the serializer is total on attribute-less nodes: a node of the
graph in the known-id set whose attribute dictionary is empty (as created
implicitly by `add_edge`) is emitted with username `""`, timestamp `null`
and avatar `null`, while a node with stored attributes is emitted with
exactly those values. -/
theorem serialize_missing_attrs_defaults (G : DiGraph) (K : List Int) (n : Int) :
    ((n, (none : Option NodeAttrs)) ∈ G.nodes → n ∈ K →
      (⟨n, "", none, none⟩ : NodeRecord) ∈ (graph_to_json G K).1) ∧
    (∀ a : NodeAttrs, (n, some a) ∈ G.nodes → n ∈ K →
      (⟨n, a.username, some a.timestamp, a.avatar_url⟩ : NodeRecord) ∈
        (graph_to_json G K).1) := by
  constructor
  · intro hmem hK
    have h1 : (n, (none : Option NodeAttrs)) ∈ G.nodes.filter (fun p => K.contains p.1) :=
      List.mem_filter.mpr ⟨hmem, by simpa using hK⟩
    have h2 := List.mem_map_of_mem (fun (p : Int × Option NodeAttrs) => mkNodeRecord p.1 p.2) h1
    exact h2
  · intro a hmem hK
    have h1 : (n, some a) ∈ G.nodes.filter (fun p => K.contains p.1) :=
      List.mem_filter.mpr ⟨hmem, by simpa using hK⟩
    have h2 := List.mem_map_of_mem (fun (p : Int × Option NodeAttrs) => mkNodeRecord p.1 p.2) h1
    exact h2

/-- C10 witness: on the graph with the foreign source 99 (a node created
implicitly by `add_edge`, hence without attributes), serialization yields
the default record for 99 and the stored attributes for node 1. -/
theorem serialize_missing_attrs_defaults_witness :
    (⟨99, "", none, none⟩ : NodeRecord) ∈ (graph_to_json Gforeign [1, 99]).1 ∧
      (⟨1, "alice", some 100, none⟩ : NodeRecord) ∈ (graph_to_json Gforeign [1, 99]).1 :=
  ⟨(serialize_missing_attrs_defaults Gforeign [1, 99] 99).1 (by decide) (by decide),
   (serialize_missing_attrs_defaults Gforeign [1, 99] 1).2 ⟨"alice", 100, none⟩
      (by decide) (by decide)⟩

end CloudCartography
